import Mathlib

/-
  Verification development for the liza-snrsl parsing-and-graph core.

  The definitions below are a shallow embedding of the JavaScript sources:
    * Graph.js        (graph store: nodes, edges, indexes, tombstoning)
    * SpecEvaluator.js (normalization passes over the graph)
    * SpecParser.js   (row handling and class-node creation)

  Modelling conventions, used throughout:
    * JS arrays become `List`; `delete arr[i]` (which leaves a hole and keeps
      `length` unchanged) becomes a `List (Option _)` slot set to `none`.
    * JS objects used as string-keyed maps become association lists
      `List (key × value)`; property insertion order is preserved, and
      updating an existing key keeps its position, exactly as JS does.
    * JS object references for edge payloads matter (the same payload object
      can be shared by several edges), so edge payloads live in a store
      `estore : List EPayload` and edges refer to payloads by index.
    * Fallible operations return `Except String _`; the message is a short
      form of the message thrown by the source (source messages quote
      identifiers; quoting is dropped here).
    * A `none` index key models a missing (undefined) argument. JS treats
      the empty string as falsy, hence as an absent key; the definitions
      reproduce that via explicit tests against the empty string.
-/

/-! ## Association-list helpers (JS objects used as maps) -/

def alGet {α β : Type} [DecidableEq α] : List (α × β) → α → Option β
  | [], _ => none
  | (k, v) :: t, a => if k = a then some v else alGet t a

def alSet {α β : Type} [DecidableEq α] : List (α × β) → α → β → List (α × β)
  | [], a, b => [(a, b)]
  | (k, v) :: t, a, b => if k = a then (a, b) :: t else (k, v) :: alSet t a b

theorem alGet_alSet_self {α β : Type} [DecidableEq α]
    (l : List (α × β)) (a : α) (b : β) : alGet (alSet l a b) a = some b := by
  induction l with
  | nil => simp [alGet, alSet]
  | cons h t ih =>
    obtain ⟨k, v⟩ := h
    by_cases hk : k = a <;> simp [alGet, alSet, hk, ih]

theorem alGet_alSet_ne {α β : Type} [DecidableEq α]
    (l : List (α × β)) (a c : α) (b : β) (h : c ≠ a) :
    alGet (alSet l a b) c = alGet l c := by
  have hac : ¬a = c := fun hh => h hh.symm
  induction l with
  | nil => simp [alGet, alSet, hac]
  | cons hd t ih =>
    obtain ⟨k, v⟩ := hd
    by_cases hk : k = a
    · subst hk
      simp [alGet, alSet, hac]
    · by_cases hc : k = c <;> simp [alGet, alSet, hk, hc, ih, h]

theorem alGet_alSet_isSome {α β : Type} [DecidableEq α]
    (l : List (α × β)) (a c : α) (b : β) (h : (alGet l c).isSome) :
    (alGet (alSet l a b) c).isSome := by
  by_cases hc : c = a
  · subst hc; simp [alGet_alSet_self]
  · rwa [alGet_alSet_ne l a c b hc]

/-! ## Data model (Graph.js)

A node is its JS data object together with the bookkeeping record that
`addNode` installs under the `gsym` symbol.  Node ids are positions in
`Graph.nodes`.  Edge payload objects live in `Graph.estore` (JS heap), and
`Graph.edges` maps each edge id to the payload it references, `none` once
the edge has been tombstoned by `removeEdge`. -/

structure NodeData where
  type : String
  label : Option String := none
  cls : Option String := none
  desc : Option String := none
  value : Option String := none
  qid : Option String := none
  qtype : Option String := none
  qopts : List String := []
deriving DecidableEq, Repr

/-- Bookkeeping installed by `addNode` under the node `gsym` property:
out and in adjacency (neighbour id to list of edge-id slots, a slot being
`none` once tombstoned), the per-node edge index `eindex`, the node index
key, and the occurrence count. -/
structure NodeMeta where
  id : Nat
  out : List (Nat × List (Option Nat)) := []
  inn : List (Nat × List (Option Nat)) := []
  eindex : List (String × Nat) := []
  indexKey : Option String := none
  occur : Nat := 1
deriving DecidableEq, Repr

structure GNode where
  data : NodeData
  meta : NodeMeta
deriving DecidableEq, Repr

structure EdgeData where
  type : Option String := none
  cond : Option String := none
  action : Option String := none
  pred : Option String := none
deriving DecidableEq, Repr

/-- Edge bookkeeping installed by `addEdge` under the payload `gsym`
property: edge id, computed index key, endpoints, and the positions of this
edge in the out list of the source and the in list of the destination. -/
structure EdgeMeta where
  id : Nat
  index : Option String := none
  src : Nat
  fromi : Nat
  dst : Nat
  toi : Nat
deriving DecidableEq, Repr

/-- An edge payload object: its data fields plus the `gsym` bookkeeping,
absent until `addEdge` installs it. -/
structure EPayload where
  data : EdgeData
  meta : Option EdgeMeta := none
deriving DecidableEq, Repr

structure Graph where
  nodes : List GNode := []
  estore : List EPayload := []
  edges : List (Option Nat) := []
  index : List (String × Nat) := []
deriving DecidableEq, Repr

def Graph.empty : Graph := {}

/-- A node reference as accepted by `nodeLookup`: a numeric id, an index
key, or a node-like object exposing an id (`byObj none` is an object with
no id field). -/
inductive NodeRef where
  | byId (n : Nat)
  | byKey (s : String)
  | byObj (id : Option Nat)
deriving DecidableEq, Repr

def nodeLookup (g : Graph) : NodeRef → Except String (Nat × GNode)
  | .byObj none => .error "Object is not a node"
  | .byObj (some i) =>
    -- the source returns the pair without checking that the slot is
    -- occupied; an unoccupied slot would make the caller fault on the
    -- first property access, modelled as an immediate error
    match g.nodes[i]? with
    | some n => .ok (i, n)
    | none => .error "TypeError: node is undefined"
  | .byId i =>
    match g.nodes[i]? with
    | some n => .ok (i, n)
    | none => .error ("Node " ++ toString i ++ " does not exist")
  | .byKey s =>
    match alGet g.index s with
    | some i =>
      match g.nodes[i]? with
      | some n => .ok (i, n)
      | none => .error ("Node " ++ toString i ++ " does not exist")
    | none => .error ("Node index " ++ s ++ " not found")

/-- `addNode`.  The source pushes the node before checking the index for a
conflict; the error path aborts the whole computation, so only the message
is modelled on it. -/
def addNode (g : Graph) (data : NodeData) (indexed_by : Option String) :
    Except String (Graph × Nat) :=
  let id := g.nodes.length
  let node : GNode :=
    { data := data
      meta := { id := id, indexKey := indexed_by } }
  match indexed_by with
  | some k =>
    if k = "" then
      -- falsy key: no registration
      .ok ({ g with nodes := g.nodes ++ [node] }, id)
    else
      match alGet g.index k with
      | some _ => .error ("Node index " ++ k ++ " already exists")
      | none =>
        .ok ({ g with nodes := g.nodes ++ [node],
                      index := alSet g.index k id }, id)
  | none => .ok ({ g with nodes := g.nodes ++ [node] }, id)

/-- `addNodeIfNew`.  A falsy (absent or empty) key falls back to a plain
keyless `addNode`; an existing key bumps the occurrence count of the
registered node and returns its id. -/
def addNodeIfNew (g : Graph) (data : NodeData) (indexed_by : Option String) :
    Except String (Graph × Nat) :=
  match indexed_by with
  | none => addNode g data none
  | some k =>
    if k = "" then addNode g data none
    else
      match alGet g.index k with
      | some existing =>
        match g.nodes[existing]? with
        | some nd =>
          let nd2 : GNode :=
            { nd with meta := { nd.meta with occur := nd.meta.occur + 1 } }
          .ok ({ g with nodes := g.nodes.set existing nd2 }, existing)
        | none => .error "TypeError: indexed node is undefined"
      | none => addNode g data (some k)

def occurOf (g : Graph) (i : Nat) : Option Nat :=
  (g.nodes[i]?).map (fun n => n.meta.occur)

/-! ## Edge operations (Graph.js) -/

/-- `_edgeIndex`: scopes an edge index key by destination node id.  A falsy
(absent or empty) key yields a falsy index, modelled as `none`. -/
def edgeIndex (indexed_by : Option String) (to_id : Nat) : Option String :=
  match indexed_by with
  | none => none
  | some s => if s = "" then none else some (s ++ ":" ++ toString to_id)

/-- Allocate a fresh payload object on the heap (a JS object literal or an
`Object.create` result) and return its reference. -/
def allocPayload (g : Graph) (d : EdgeData) : Graph × Nat :=
  ({ g with estore := g.estore ++ [{ data := d }] }, g.estore.length)

def setGNode (g : Graph) (i : Nat) (nd : GNode) : Graph :=
  { g with nodes := g.nodes.set i nd }

/-- Core of `addEdge`, given the payload object (by reference `r`).
Mirrors the source step by step: resolve both endpoints, compute the scoped
index, check it for a conflict (the source check `index && eindex[index]`
is truthy, so a registered edge id 0 does not trigger the conflict), push
the edge, append it to the out list of the source and the in list of the
destination, install the `gsym` bookkeeping on the payload object, and
register the index on the source node. -/
def addEdgeAt (g : Graph) (from_ to_ : NodeRef) (r : Nat)
    (indexed_by : Option String) : Except String (Graph × Nat) :=
  match nodeLookup g from_ with
  | .error e => .error e
  | .ok (id_from, node_from) =>
  match nodeLookup g to_ with
  | .error e => .error e
  | .ok (id_to, _) =>
  let index := edgeIndex indexed_by id_to
  let conflict : Bool :=
    match index with
    | some s =>
      match alGet node_from.meta.eindex s with
      | some eid => eid != 0
      | none => false
    | none => false
  if conflict then
    .error ("Edge index already exists for node " ++ toString id_from)
  else
    let eid := g.edges.length
    let outList := (alGet node_from.meta.out id_to).getD []
    let fromi := outList.length
    let nfMeta : NodeMeta :=
      { node_from.meta with out := alSet node_from.meta.out id_to (outList ++ [some eid]) }
    let g1 := setGNode g id_from { node_from with meta := nfMeta }
    match g1.nodes[id_to]? with
    | none => .error "TypeError: node is undefined"
    | some node_to1 =>
      let innList := (alGet node_to1.meta.inn id_from).getD []
      let toi := innList.length
      let ntMeta : NodeMeta :=
        { node_to1.meta with inn := alSet node_to1.meta.inn id_from (innList ++ [some eid]) }
      let g2 := setGNode g1 id_to { node_to1 with meta := ntMeta }
      match g2.estore[r]? with
      | none => .error "TypeError: payload is undefined"
      | some pl =>
        let em : EdgeMeta :=
          { id := eid, index := index, src := id_from, fromi := fromi,
            dst := id_to, toi := toi }
        let pl2 : EPayload := { pl with meta := some em }
        let g3 : Graph :=
          { g2 with estore := g2.estore.set r pl2, edges := g2.edges ++ [some r] }
        match index with
        | some s =>
          match g3.nodes[id_from]? with
          | none => .error "TypeError: node is undefined"
          | some nf3 =>
            let nf3Meta : NodeMeta :=
              { nf3.meta with eindex := alSet nf3.meta.eindex s eid }
            let g4 := setGNode g3 id_from { nf3 with meta := nf3Meta }
            .ok (g4, eid)
        | none => .ok (g3, eid)

/-- `addEdge`.  The `data` argument is a reference to a payload object
(`none` models a missing argument, replaced by a fresh empty object, which
is what `data = data || {}` does). -/
def addEdge (g0 : Graph) (from_ to_ : NodeRef) (dataRef : Option Nat)
    (indexed_by : Option String) : Except String (Graph × Nat) :=
  match dataRef with
  | some r => addEdgeAt g0 from_ to_ r indexed_by
  | none =>
    let gr := allocPayload g0 {}
    addEdgeAt gr.1 from_ to_ gr.2 indexed_by

/-- `addEdgeIfNew`: returns the edge registered under the scoped
(destination, key) index of the source node when present (a test against
`undefined`, so an edge id 0 short-circuits here too), otherwise adds. -/
def addEdgeIfNew (g : Graph) (from_ to_ : NodeRef) (dataRef : Option Nat)
    (indexed_by : Option String) : Except String (Graph × Nat) :=
  match nodeLookup g from_ with
  | .error e => .error e
  | .ok (_, node_from) =>
  match nodeLookup g to_ with
  | .error e => .error e
  | .ok (id_to, _) =>
  match edgeIndex indexed_by id_to with
  | some s =>
    match alGet node_from.meta.eindex s with
    | some eid => .ok (g, eid)
    | none => addEdge g from_ to_ dataRef indexed_by
  | none => addEdge g from_ to_ dataRef indexed_by

/-- `addEdges`: one `Object.create( data || {} )` per destination, so every
destination gets a fresh payload object.  The prototype link is modelled as
a field copy: nothing in the pipeline mutates the shared prototype after
this call, so the two are observationally equal. -/
def addEdges (g : Graph) (from_ : NodeRef) (to_all : List NodeRef)
    (data : Option EdgeData) (indexed_by : Option String) :
    Except String (Graph × List Nat) :=
  match to_all with
  | [] => .ok (g, [])
  | t :: ts =>
    let (g1, r) := allocPayload g (data.getD {})
    match addEdge g1 from_ t (some r) indexed_by with
    | .error e => .error e
    | .ok (g2, eid) =>
      match addEdges g2 from_ ts data indexed_by with
      | .error e => .error e
      | .ok (g3, eids) => .ok (g3, eid :: eids)

/-- `addEdgesIfNew`: the SAME payload reference is passed to every
destination (the source forwards its `data` argument unchanged), unlike
`addEdges`. -/
def addEdgesIfNew (g : Graph) (from_ : NodeRef) (to_all : List NodeRef)
    (dataRef : Option Nat) (indexed_by : Option String) :
    Except String (Graph × List Nat) :=
  match to_all with
  | [] => .ok (g, [])
  | t :: ts =>
    match addEdgeIfNew g from_ t dataRef indexed_by with
    | .error e => .error e
    | .ok (g2, eid) =>
      match addEdgesIfNew g2 from_ ts dataRef indexed_by with
      | .error e => .error e
      | .ok (g3, eids) => .ok (g3, eid :: eids)

/-- An edge argument to `removeEdge`: a numeric edge id, or a held edge
payload object (modelled by its store reference). -/
inductive ERef where
  | byId (e : Nat)
  | byObj (r : Nat)
deriving DecidableEq, Repr

/-- `removeEdge`: logical (tombstone) removal.  Looking up a numeric id
whose slot is empty aborts at the `Edge id not found` line (which in the
source even references an undeclared variable and so itself throws); a held
payload object whose slot has been cleared aborts with `already been
removed`.  The removal clears the two adjacency slots named by the payload
bookkeeping and deletes the edge slot, which keeps `edges.length`
unchanged. -/
def removeEdge (g : Graph) (ref : ERef) : Except String Graph :=
  let rres : Except String Nat :=
    match ref with
    | .byId e =>
      match g.edges[e]? with
      | some (some r) => .ok r
      | _ => .error ("Edge id not found: " ++ toString e)
    | .byObj r =>
      match g.estore[r]? with
      | some _ => .ok r
      | none => .error "TypeError: payload is undefined"
  match rres with
  | .error e => .error e
  | .ok r =>
  match g.estore[r]? with
  | none => .error "TypeError: payload is undefined"
  | some pl =>
  match pl.meta with
  | none => .error "TypeError: edge has no bookkeeping"
  | some gedge =>
  let chk := (g.edges[gedge.id]?).join
  if chk = none ∧ gedge.id ≤ g.edges.length then
    .error ("Edge " ++ toString gedge.id ++ " has already been removed")
  else
  match g.nodes[gedge.src]? with
  | none => .error "TypeError: node is undefined"
  | some node_from =>
  match alGet node_from.meta.out gedge.dst with
  | none => .error "TypeError: out list is undefined"
  | some outList =>
  let nfMeta : NodeMeta :=
    { node_from.meta with out := alSet node_from.meta.out gedge.dst (outList.set gedge.fromi none) }
  let g1 := setGNode g gedge.src { node_from with meta := nfMeta }
  match g1.nodes[gedge.dst]? with
  | none => .error "TypeError: node is undefined"
  | some node_to =>
  match alGet node_to.meta.inn gedge.src with
  | none => .error "TypeError: in list is undefined"
  | some innList =>
  let ntMeta : NodeMeta :=
    { node_to.meta with inn := alSet node_to.meta.inn gedge.src (innList.set gedge.toi none) }
  let g2 := setGNode g1 gedge.dst { node_to with meta := ntMeta }
  .ok { g2 with edges := g2.edges.set gedge.id none }

/-- The payload reference an edge id currently resolves to (`_edges[eid]`),
`none` for a tombstoned or unknown id. -/
def edgeRefOf (g : Graph) (e : Nat) : Option Nat := (g.edges[e]?).join

/-- The data fields an edge id resolves to through the store, as read by
the adjacency views (`reledges`). -/
def payloadData (g : Graph) (e : Nat) : Option EdgeData :=
  (edgeRefOf g e).bind (fun r => (g.estore[r]?).map (fun pl => pl.data))

/-- Mutation of a payload field through an edge (what a later pass does
when it writes for example `edge.pred`): updates the payload object the
edge references. -/
def setEdgeData (g : Graph) (e : Nat) (f : EdgeData → EdgeData) : Graph :=
  match edgeRefOf g e with
  | none => g
  | some r =>
    match g.estore[r]? with
    | none => g
    | some pl => { g with estore := g.estore.set r { pl with data := f pl.data } }

structure GStats where
  nodeCount : Nat
  edgeCount : Nat
deriving DecidableEq, Repr

/-- `stats()`: `edgeCount` is `_edges.length`, which counts tombstoned
slots (JS `delete` does not shrink an array). -/
def stats (g : Graph) : GStats :=
  { nodeCount := g.nodes.length, edgeCount := g.edges.length }

/-- Number of live (not tombstoned) edges, for contrast with
`stats.edgeCount`. -/
def liveEdgeCount (g : Graph) : Nat := (g.edges.filterMap id).length

/-- Out-adjacency slot list of node `a` toward node `b`. -/
def outSlots (g : Graph) (a b : Nat) : List (Option Nat) :=
  ((g.nodes[a]?).map (fun nd => (alGet nd.meta.out b).getD [])).getD []

/-- In-adjacency slot list of node `a` from node `b`. -/
def innSlots (g : Graph) (a b : Nat) : List (Option Nat) :=
  ((g.nodes[a]?).map (fun nd => (alGet nd.meta.inn b).getD [])).getD []

/-! ## Claim C3: idempotent key insertion -/

/-- Occurrence-count bump performed by `addNodeIfNew` on a key hit. -/
def bumpOccur (nd : GNode) : GNode :=
  { nd with meta := { nd.meta with occur := nd.meta.occur + 1 } }

/-- `addNodeIfNew` on a registered (truthy) key bumps the occurrence count
and returns the registered id. -/
theorem addNodeIfNew_hit (g : Graph) (d : NodeData) (k : String)
    (hk : k ≠ "") (e : Nat) (nd : GNode)
    (he : alGet g.index k = some e) (hn : g.nodes[e]? = some nd) :
    addNodeIfNew g d (some k) =
      .ok ({ g with nodes := g.nodes.set e (bumpOccur nd) }, e) := by
  simp only [addNodeIfNew, if_neg hk, he, hn, bumpOccur]

/-- After a successful keyed `addNodeIfNew`, the key is registered and
resolves to the returned id. -/
theorem addNodeIfNew_registers (g : Graph) (d : NodeData) (k : String)
    (hk : k ≠ "") (g₁ : Graph) (id₁ : Nat)
    (h₁ : addNodeIfNew g d (some k) = .ok (g₁, id₁)) :
    alGet g₁.index k = some id₁ ∧ ∃ nd, g₁.nodes[id₁]? = some nd := by
  simp only [addNodeIfNew, if_neg hk] at h₁
  split at h₁
  next existing he =>
    split at h₁
    next nd hn =>
      simp only [Except.ok.injEq, Prod.mk.injEq] at h₁
      obtain ⟨hg, hid⟩ := h₁
      subst hg
      have hlt : existing < g.nodes.length := (List.getElem?_eq_some_iff.mp hn).1
      constructor
      · simpa [hid] using he
      · refine ⟨bumpOccur nd, ?_⟩
        rw [← hid]
        exact List.getElem?_set_eq_of_lt _ hlt
    next hn => simp at h₁
  next he =>
    simp only [addNode, if_neg hk, he] at h₁
    simp only [Except.ok.injEq, Prod.mk.injEq] at h₁
    obtain ⟨hg, hid⟩ := h₁
    subst hg
    constructor
    · simpa [hid] using alGet_alSet_self g.index k g.nodes.length
    · refine ⟨{ data := d, meta := { id := g.nodes.length, indexKey := some k } }, ?_⟩
      rw [← hid]
      exact List.getElem?_concat_length g.nodes _

/-- C3: a second `addNodeIfNew` under the same (truthy) key returns the id
of the first call, creates no node, bumps the occurrence count of exactly
that node by one and leaves every other node untouched; and a keyless
`addNodeIfNew` is a plain `addNode`, which always creates a fresh node.
(The source treats an empty-string key as no key at all, so the keyed part
is stated for nonempty keys.) -/
theorem addNodeIfNew_key_idempotent (g : Graph) (d₁ d₂ : NodeData) (k : String)
    (hk : k ≠ "") (g₁ : Graph) (id₁ : Nat)
    (h₁ : addNodeIfNew g d₁ (some k) = .ok (g₁, id₁)) :
    (∃ g₂, addNodeIfNew g₁ d₂ (some k) = .ok (g₂, id₁)
      ∧ g₂.nodes.length = g₁.nodes.length
      ∧ occurOf g₂ id₁ = (occurOf g₁ id₁).map (fun n => n + 1)
      ∧ ∀ j, j ≠ id₁ → g₂.nodes[j]? = g₁.nodes[j]?)
    ∧ (∀ (g' : Graph) (d : NodeData),
        addNodeIfNew g' d none = addNode g' d none
        ∧ ∃ gf, addNode g' d none = .ok (gf, g'.nodes.length)
            ∧ gf.nodes.length = g'.nodes.length + 1) := by
  obtain ⟨halg, nd, hns⟩ := addNodeIfNew_registers g d₁ k hk g₁ id₁ h₁
  constructor
  · have hlt : id₁ < g₁.nodes.length := (List.getElem?_eq_some_iff.mp hns).1
    have hcall := addNodeIfNew_hit g₁ d₂ k hk id₁ nd halg hns
    refine ⟨_, hcall, by simp, ?_, ?_⟩
    · simp [occurOf, hns, List.getElem?_set_eq_of_lt _ hlt, bumpOccur]
    · intro j hj
      exact List.getElem?_set_ne (fun hh => hj hh.symm)
  · intro g' d
    refine ⟨rfl, ?_⟩
    exact ⟨_, rfl, by simp [addNode]⟩

/-- First insertion for the C3 witness. -/
def c3graph1 : Graph :=
  match addNodeIfNew Graph.empty { type := "question" } (some "q$A") with
  | .ok (g, _) => g
  | .error _ => Graph.empty

/-- Witness for C3 at a concrete graph: two keyed insertions under the key
`q$A`, then the conclusions evaluated. -/
theorem addNodeIfNew_key_idempotent_witness :
    ∃ g₂, addNodeIfNew c3graph1 { type := "question", desc := some "x" } (some "q$A") = .ok (g₂, 0)
      ∧ g₂.nodes.length = 1
      ∧ occurOf g₂ 0 = some 2 := by
  have h := addNodeIfNew_key_idempotent Graph.empty
    { type := "question" } { type := "question", desc := some "x" } "q$A" (by decide)
    c3graph1 0 rfl
  obtain ⟨⟨g₂, hcall, hlen, hocc, _⟩, _⟩ := h
  refine ⟨g₂, hcall, ?_, ?_⟩
  · rw [hlen]; decide
  · rw [hocc]; decide

/-! ## Claim C4: edge dedup scoping -/

/-- What a node reference must satisfy to resolve to id `i`. -/
def nodeRefResolves (g : Graph) : NodeRef → Nat → Prop
  | .byId j, i => j = i
  | .byKey s, i => alGet g.index s = some i
  | .byObj none, _ => False
  | .byObj (some j), i => j = i

theorem nodeLookup_ok_elim (g : Graph) (x : NodeRef) (i : Nat) (n : GNode)
    (h : nodeLookup g x = .ok (i, n)) :
    g.nodes[i]? = some n ∧ nodeRefResolves g x i := by
  cases x with
  | byId j =>
    simp only [nodeLookup] at h
    split at h
    next nd hj =>
      simp only [Except.ok.injEq, Prod.mk.injEq] at h
      obtain ⟨hi, hn⟩ := h
      subst hi
      exact ⟨by rw [hj, hn], rfl⟩
    next => simp at h
  | byKey s =>
    simp only [nodeLookup] at h
    split at h
    next j hs =>
      split at h
      next nd hj =>
        simp only [Except.ok.injEq, Prod.mk.injEq] at h
        obtain ⟨hi, hn⟩ := h
        subst hi
        exact ⟨by rw [hj, hn], by simpa [nodeRefResolves] using hs⟩
      next => simp at h
    next => simp at h
  | byObj o =>
    cases o with
    | none => simp [nodeLookup] at h
    | some j =>
      simp only [nodeLookup] at h
      split at h
      next nd hj =>
        simp only [Except.ok.injEq, Prod.mk.injEq] at h
        obtain ⟨hi, hn⟩ := h
        subst hi
        exact ⟨by rw [hj, hn], rfl⟩
      next => simp at h

theorem nodeLookup_intro (g : Graph) (x : NodeRef) (i : Nat) (n : GNode)
    (hn : g.nodes[i]? = some n) (hr : nodeRefResolves g x i) :
    nodeLookup g x = .ok (i, n) := by
  cases x with
  | byId j =>
    have hj : j = i := hr
    subst hj
    simp [nodeLookup, hn]
  | byKey s =>
    have hs : alGet g.index s = some i := hr
    simp [nodeLookup, hs, hn]
  | byObj o =>
    cases o with
    | none => exact absurd hr (by simp [nodeRefResolves])
    | some j =>
      have hj : j = i := hr
      subst hj
      simp [nodeLookup, hn]

/-- Node resolution is stable under graph changes that keep the node index
and node count (edge insertion only rewrites node slots in place). -/
theorem nodeLookup_stable (g g' : Graph) (x : NodeRef) (i : Nat) (n : GNode)
    (hidx : g'.index = g.index) (hlen : g'.nodes.length = g.nodes.length)
    (h : nodeLookup g x = .ok (i, n)) :
    ∃ n', nodeLookup g' x = .ok (i, n') := by
  obtain ⟨hn, hr⟩ := nodeLookup_ok_elim g x i n h
  have hlt : i < g'.nodes.length := by
    rw [hlen]; exact (List.getElem?_eq_some_iff.mp hn).1
  rcases hn' : g'.nodes[i]? with _ | n'
  · exact absurd hn' (by simp [List.getElem?_eq_none_iff]; omega)
  · refine ⟨n', nodeLookup_intro g' x i n' hn' ?_⟩
    cases x with
    | byId j => exact hr
    | byKey s => simpa [nodeRefResolves, hidx] using hr
    | byObj o => cases o with
      | none => exact absurd hr (by simp [nodeRefResolves])
      | some j => exact hr

/-- Post-state of a successful keyed `addEdgeAt`: the returned id is the
fresh `edges` position, the edge array grew by one, node index and node
count are unchanged, and the source node carries the scoped eindex entry
for the destination. -/
theorem addEdgeAt_post (g : Graph) (a b : NodeRef) (r : Nat) (k : String)
    (hk : k ≠ "") (g' : Graph) (e : Nat)
    (h : addEdgeAt g a b r (some k) = .ok (g', e)) :
    ∃ ia nfa ib nb,
      nodeLookup g a = .ok (ia, nfa) ∧ nodeLookup g b = .ok (ib, nb) ∧
      g'.index = g.index ∧ g'.nodes.length = g.nodes.length ∧
      e = g.edges.length ∧ g'.edges.length = g.edges.length + 1 ∧
      ∃ nfa', g'.nodes[ia]? = some nfa' ∧
        alGet nfa'.meta.eindex (k ++ ":" ++ toString ib) = some e := by
  simp only [addEdgeAt, edgeIndex, if_neg hk] at h
  split at h
  next => exact absurd h (by simp)
  next ia nfa hla =>
  split at h
  next => exact absurd h (by simp)
  next ib nb hlb =>
  have hialt : ia < g.nodes.length :=
    (List.getElem?_eq_some_iff.mp (nodeLookup_ok_elim g a ia nfa hla).1).1
  split at h
  next => exact absurd h (by simp)
  next hnoconf =>
  split at h
  next => exact absurd h (by simp)
  next nt1 hnt1 =>
  split at h
  next => exact absurd h (by simp)
  next pl hpl =>
  split at h
  next => exact absurd h (by simp)
  next nf3 hnf3 =>
  simp only [Except.ok.injEq, Prod.mk.injEq] at h
  obtain ⟨hg, he⟩ := h
  subst hg
  refine ⟨ia, nfa, ib, nb, hla, hlb, by simp [setGNode], by simp [setGNode],
    he.symm, by simp [setGNode], ?_⟩
  refine ⟨_, List.getElem?_set_eq_of_lt _ (by simpa [setGNode] using hialt), ?_⟩
  rw [← he]
  exact alGet_alSet_self _ _ _

/-- `nodeLookup` only reads the node index and the node list. -/
theorem nodeLookup_congr (g g' : Graph) (x : NodeRef)
    (hidx : g'.index = g.index) (hn : g'.nodes = g.nodes) :
    nodeLookup g' x = nodeLookup g x := by
  cases x with
  | byId j => simp [nodeLookup, hidx, hn]
  | byKey s => simp [nodeLookup, hidx, hn]
  | byObj o => cases o <;> simp [nodeLookup, hidx, hn]

/-- `addEdgeAt_post`, lifted over the payload-defaulting wrapper. -/
theorem addEdge_post (g : Graph) (a b : NodeRef) (dref : Option Nat) (k : String)
    (hk : k ≠ "") (g' : Graph) (e : Nat)
    (h : addEdge g a b dref (some k) = .ok (g', e)) :
    ∃ ia nfa ib nb,
      nodeLookup g a = .ok (ia, nfa) ∧ nodeLookup g b = .ok (ib, nb) ∧
      g'.index = g.index ∧ g'.nodes.length = g.nodes.length ∧
      e = g.edges.length ∧ g'.edges.length = g.edges.length + 1 ∧
      ∃ nfa', g'.nodes[ia]? = some nfa' ∧
        alGet nfa'.meta.eindex (k ++ ":" ++ toString ib) = some e := by
  cases dref with
  | some r => exact addEdgeAt_post g a b r k hk g' e h
  | none =>
    simp only [addEdge] at h
    obtain ⟨ia, nfa, ib, nb, hla, hlb, hidx, hlen, he, helen, hrest⟩ :=
      addEdgeAt_post (allocPayload g {}).1 a b (allocPayload g {}).2 k hk g' e h
    have hcg : (allocPayload g {}).1.index = g.index := rfl
    have hcn : (allocPayload g {}).1.nodes = g.nodes := rfl
    rw [nodeLookup_congr g (allocPayload g {}).1 a hcg hcn] at hla
    rw [nodeLookup_congr g (allocPayload g {}).1 b hcg hcn] at hlb
    exact ⟨ia, nfa, ib, nb, hla, hlb, by rw [hidx]; rfl, by rw [hlen]; rfl,
      by rw [he]; rfl, by rw [helen]; rfl, hrest⟩

/-- Facts about a successful keyed `addEdgeIfNew`: resolved endpoints, node
index and count stability, and the scoped eindex entry of the source
mapping the (destination, key) pair to the returned id; plus, when the edge
was freshly added, the growth facts. -/
theorem addEdgeIfNew_post (g : Graph) (a b : NodeRef) (dref : Option Nat)
    (k : String) (hk : k ≠ "") (g₁ : Graph) (e₁ : Nat)
    (h₁ : addEdgeIfNew g a b dref (some k) = .ok (g₁, e₁)) :
    ∃ ia nfa ib nb,
      nodeLookup g a = .ok (ia, nfa) ∧ nodeLookup g b = .ok (ib, nb) ∧
      g₁.index = g.index ∧ g₁.nodes.length = g.nodes.length ∧
      ∃ nfa₁, g₁.nodes[ia]? = some nfa₁ ∧
        alGet nfa₁.meta.eindex (k ++ ":" ++ toString ib) = some e₁ := by
  simp only [addEdgeIfNew, edgeIndex, if_neg hk] at h₁
  split at h₁
  next => exact absurd h₁ (by simp)
  next ia nfa hla =>
  split at h₁
  next => exact absurd h₁ (by simp)
  next ib nb hlb =>
  split at h₁
  next eid hhit =>
    simp only [Except.ok.injEq, Prod.mk.injEq] at h₁
    obtain ⟨hg, he⟩ := h₁
    subst hg
    exact ⟨ia, nfa, ib, nb, hla, hlb, rfl, rfl,
      nfa, (nodeLookup_ok_elim g a ia nfa hla).1, by rw [hhit, he]⟩
  next hmiss =>
    obtain ⟨ia', nfa', ib', nb', hla', hlb', hidx, hlen, _, _, nfa₁, hn₁, hix⟩ :=
      addEdge_post g a b dref k hk g₁ e₁ h₁
    have hia : ia' = ia ∧ nfa' = nfa := by
      have := hla'.symm.trans hla
      simpa using this
    have hib : ib' = ib ∧ nb' = nb := by
      have := hlb'.symm.trans hlb
      simpa using this
    obtain ⟨hia1, _⟩ := hia
    obtain ⟨hib1, _⟩ := hib
    subst hia1
    subst hib1
    exact ⟨ia', nfa, ib', nb, hla, hlb, hidx, hlen, nfa₁, hn₁, hix⟩

theorem nodeRefResolves_congr (g g' : Graph) (x : NodeRef) (i : Nat)
    (hidx : g'.index = g.index) (h : nodeRefResolves g x i) :
    nodeRefResolves g' x i := by
  cases x with
  | byId j => exact h
  | byKey s => simpa [nodeRefResolves, hidx] using h
  | byObj o => cases o with
    | none => exact absurd h (by simp [nodeRefResolves])
    | some j => exact h

/-- C4 (amended): edge index keys are scoped per (source, destination)
pair.  After a successful keyed `addEdgeIfNew`: (1) repeating the call from
the same source to the same destination under the same key returns the same
edge id and leaves the graph unchanged, whatever payload is passed; (2) a
call from the same source under the same key whose destination resolves to
a scoped key that is not yet registered appends a fresh, distinct edge. -/
theorem addEdgeIfNew_scoping (g : Graph) (a b : NodeRef) (dref : Option Nat)
    (k : String) (hk : k ≠ "") (g₁ : Graph) (e₁ : Nat)
    (h₁ : addEdgeIfNew g a b dref (some k) = .ok (g₁, e₁)) :
    (∀ dref₂, addEdgeIfNew g₁ a b dref₂ (some k) = .ok (g₁, e₁))
    ∧ (∀ b' dref' g₂ e₂ ia nfa₁ ib' nb',
        nodeLookup g₁ a = .ok (ia, nfa₁) →
        nodeLookup g₁ b' = .ok (ib', nb') →
        alGet nfa₁.meta.eindex (k ++ ":" ++ toString ib') = none →
        addEdgeIfNew g₁ a b' dref' (some k) = .ok (g₂, e₂) →
        e₂ = g₁.edges.length ∧ g₂.edges.length = g₁.edges.length + 1
          ∧ (e₁ < g₁.edges.length → e₂ ≠ e₁)) := by
  obtain ⟨ia, nfa, ib, nb, hla, hlb, hidx, hlen, nfa₁, hn₁, hix⟩ :=
    addEdgeIfNew_post g a b dref k hk g₁ e₁ h₁
  have hla₁ : nodeLookup g₁ a = .ok (ia, nfa₁) :=
    nodeLookup_intro g₁ a ia nfa₁ hn₁
      (nodeRefResolves_congr g g₁ a ia hidx (nodeLookup_ok_elim g a ia nfa hla).2)
  obtain ⟨nb₁, hlb₁⟩ := nodeLookup_stable g g₁ b ib nb hidx hlen hlb
  constructor
  · intro dref₂
    simp only [addEdgeIfNew, edgeIndex, if_neg hk, hla₁, hlb₁, hix]
  · intro b' dref' g₂ e₂ ia' nfa₁' ib' nb' hla' hlb' hmiss hcall
    have hiaeq : ia' = ia ∧ nfa₁' = nfa₁ := by
      have := hla'.symm.trans hla₁
      simpa using this
    obtain ⟨hia1, hia2⟩ := hiaeq
    subst hia1
    subst hia2
    simp only [addEdgeIfNew, edgeIndex, if_neg hk, hla', hlb', hmiss] at hcall
    obtain ⟨_, _, _, _, _, _, _, _, hfresh, hgrow, _⟩ :=
      addEdge_post g₁ a b' dref' k hk g₂ e₂ hcall
    exact ⟨hfresh, hgrow, fun hlt => by omega⟩

/-! ### Concrete graph builder used by witnesses and counterexamples -/

inductive GOp where
  | gnode (d : NodeData) (k : Option String)
  | gnodeNew (d : NodeData) (k : Option String)
  | gedge (a b : NodeRef) (d : Option EdgeData) (k : Option String)
  | gedgeNew (a b : NodeRef) (d : Option EdgeData) (k : Option String)
  | gedges (a : NodeRef) (bs : List NodeRef) (d : Option EdgeData) (k : Option String)
  | grm (r : ERef)
deriving Repr

/-- Run one graph-store call; a `some` edge data argument is a fresh object
literal at the call site, allocated before the call as JS would. -/
def runOp (g : Graph) : GOp → Except String Graph
  | .gnode d k => (addNode g d k).map Prod.fst
  | .gnodeNew d k => (addNodeIfNew g d k).map Prod.fst
  | .gedge a b d k =>
    match d with
    | some dd =>
      let gr := allocPayload g dd
      (addEdge gr.1 a b (some gr.2) k).map Prod.fst
    | none => (addEdge g a b none k).map Prod.fst
  | .gedgeNew a b d k =>
    match d with
    | some dd =>
      let gr := allocPayload g dd
      (addEdgeIfNew gr.1 a b (some gr.2) k).map Prod.fst
    | none => (addEdgeIfNew g a b none k).map Prod.fst
  | .gedges a bs d k => (addEdges g a bs d k).map Prod.fst
  | .grm r => removeEdge g r

def runOps (g : Graph) : List GOp → Except String Graph
  | [] => .ok g
  | op :: ops =>
    match runOp g op with
    | .error e => .error e
    | .ok g1 => runOps g1 ops

def buildG (ops : List GOp) : Graph :=
  match runOps Graph.empty ops with
  | .ok g => g
  | .error _ => Graph.empty

/-! ### C4 concrete instances -/

/-- Three plain nodes 0, 1, 2. -/
def c4base : Graph :=
  buildG [ .gnode { type := "a" } none, .gnode { type := "b" } none,
           .gnode { type := "c" } none ]

def c4g1 : Graph :=
  match addEdgeIfNew c4base (.byId 0) (.byId 2) none (some "k") with
  | .ok (g, _) => g
  | .error _ => c4base

def c4g2 : Graph :=
  match addEdgeIfNew c4g1 (.byId 1) (.byId 2) none (some "k") with
  | .ok (g, _) => g
  | .error _ => c4g1

/-- Counterexample to C4 as stated: re-insertion under the same
(destination, key) pair from a DIFFERENT source does not return the
pre-existing edge id 0; it creates a second edge with the fresh id 1. -/
theorem addEdgeIfNew_dest_scope_counterexample :
    addEdgeIfNew c4base (.byId 0) (.byId 2) none (some "k") = .ok (c4g1, 0)
    ∧ addEdgeIfNew c4g1 (.byId 1) (.byId 2) none (some "k") = .ok (c4g2, 1)
    ∧ (1 : Nat) ≠ 0
    ∧ c4g1.edges.length = 1 ∧ c4g2.edges.length = 2 := by
  refine ⟨rfl, rfl, by decide, by decide, by decide⟩

/-- Same source 0, same key, different destination 1 (used by the C4
witness). -/
def c4g3 : Graph :=
  match addEdgeIfNew c4g1 (.byId 0) (.byId 1) none (some "k") with
  | .ok (g, _) => g
  | .error _ => c4g1

/-- Witness for the amended C4 theorem: the identical repeat call (even
with an unrelated payload argument) is a pure lookup returning edge 0, and
the same-source different-destination call creates the distinct fresh
edge 1. -/
theorem addEdgeIfNew_scoping_witness :
    addEdgeIfNew c4g1 (.byId 0) (.byId 2) (some 7) (some "k") = .ok (c4g1, 0)
    ∧ (1 : Nat) = c4g1.edges.length ∧ (1 : Nat) ≠ 0 := by
  have h := addEdgeIfNew_scoping c4base (.byId 0) (.byId 2) none "k"
    (by decide) c4g1 0 rfl
  refine ⟨h.1 (some 7), ?_, ?_⟩
  · exact (h.2 (.byId 1) none c4g3 1 0
      { data := { type := "a" },
        meta := { id := 0, out := [(2, [some 0])],
                  eindex := [("k:2", 0)] } }
      1 { data := { type := "b" }, meta := { id := 1 } }
      rfl rfl rfl rfl).1
  · decide

/-! ## Claim C10: `stats().edgeCount` counts tombstones -/

theorem filterMap_id_set_none {α : Type} (l : List (Option α)) (i : Nat) (x : α)
    (h : l[i]? = some (some x)) :
    ((l.set i none).filterMap id).length + 1 = (l.filterMap id).length := by
  induction l generalizing i with
  | nil => simp at h
  | cons a t ih =>
    cases i with
    | zero =>
      simp only [List.getElem?_cons_zero, Option.some.injEq] at h
      subst h
      simp [List.set, List.filterMap]
    | succ j =>
      simp only [List.getElem?_cons_succ] at h
      cases a with
      | none => simpa [List.set, List.filterMap] using ih j h
      | some y => simpa [List.set, List.filterMap] using ih j h

theorem addEdgeAt_edges_len (g : Graph) (a b : NodeRef) (r : Nat)
    (k : Option String) (g' : Graph) (e : Nat)
    (h : addEdgeAt g a b r k = .ok (g', e)) :
    g'.edges.length = g.edges.length + 1 := by
  simp only [addEdgeAt] at h
  repeat' split at h
  all_goals
    first
    | exact Except.noConfusion h
    | (simp only [Except.ok.injEq, Prod.mk.injEq] at h
       obtain ⟨hg, _⟩ := h
       subst hg
       simp [setGNode])

theorem addEdge_edges_len (g : Graph) (a b : NodeRef) (dref : Option Nat)
    (k : Option String) (g' : Graph) (e : Nat)
    (h : addEdge g a b dref k = .ok (g', e)) :
    g'.edges.length = g.edges.length + 1 := by
  cases dref with
  | some r => exact addEdgeAt_edges_len g a b r k g' e h
  | none =>
    simp only [addEdge] at h
    have := addEdgeAt_edges_len (allocPayload g {}).1 a b (allocPayload g {}).2 k g' e h
    simpa [allocPayload] using this

/-- C10: `stats().edgeCount` is unchanged by any successful `removeEdge`
and incremented by every successful `addEdge`, so it reports the historical
insertion count; a removal of a live edge shrinks only the live count. -/
theorem stats_edgeCount_historical :
    (∀ (g : Graph) (ref : ERef) (g' : Graph),
      removeEdge g ref = .ok g' → (stats g').edgeCount = (stats g).edgeCount)
    ∧ (∀ (g : Graph) (a b : NodeRef) (dref : Option Nat) (k : Option String)
        (g' : Graph) (e : Nat), addEdge g a b dref k = .ok (g', e) →
        (stats g').edgeCount = (stats g).edgeCount + 1)
    ∧ (∀ (g : Graph) (e r : Nat) (g' : Graph) (pl : EPayload) (m : EdgeMeta),
        g.edges[e]? = some (some r) → g.estore[r]? = some pl →
        pl.meta = some m → m.id = e →
        removeEdge g (.byId e) = .ok g' →
        liveEdgeCount g' + 1 = liveEdgeCount g) := by
  refine ⟨?_, ?_, ?_⟩
  · intro g ref g' h
    simp only [removeEdge] at h
    repeat' split at h
    all_goals
      first
      | exact Except.noConfusion h
      | (simp only [Except.ok.injEq] at h
         subst h
         simp [stats, setGNode])
  · intro g a b dref k g' e h
    have := addEdge_edges_len g a b dref k g' e h
    simpa [stats] using this
  · intro g e r g' pl m he hr hm hid h
    simp only [removeEdge, he, hr, hm] at h
    rw [hid] at h
    simp only [he, Option.join] at h
    repeat' split at h
    all_goals
      first
      | exact Except.noConfusion h
      | (simp only [Except.ok.injEq] at h
         subst h
         simp only [liveEdgeCount, setGNode]
         exact filterMap_id_set_none g.edges e r he)

/-- Two nodes and one live edge between them. -/
def c10base : Graph :=
  buildG [ .gnode { type := "question" } none, .gnode { type := "surcharge" } none,
           .gedge (.byId 0) (.byId 1) (some { type := some "cond" }) none ]

def c10removed : Graph :=
  match removeEdge c10base (.byId 0) with
  | .ok g => g
  | .error _ => c10base

def c10added : Graph :=
  match addEdge c10removed (.byId 0) (.byId 1) none none with
  | .ok (g, _) => g
  | .error _ => c10removed

/-- Witness for C10: a concrete removal leaves `edgeCount` at 1 while the
live count drops to 0, and a subsequent insertion bumps `edgeCount`. -/
theorem stats_edgeCount_historical_witness :
    (stats c10removed).edgeCount = (stats c10base).edgeCount
    ∧ liveEdgeCount c10removed + 1 = liveEdgeCount c10base
    ∧ (stats c10added).edgeCount = (stats c10removed).edgeCount + 1
    ∧ (stats c10base).edgeCount = 1 ∧ liveEdgeCount c10removed = 0 := by
  refine ⟨stats_edgeCount_historical.1 c10base (.byId 0) c10removed rfl,
    stats_edgeCount_historical.2.2 c10base 0 0 c10removed
      { data := { type := some "cond" },
        meta := some { id := 0, src := 0, fromi := 0, dst := 1, toi := 0 } }
      { id := 0, src := 0, fromi := 0, dst := 1, toi := 0 }
      rfl rfl rfl rfl rfl,
    stats_edgeCount_historical.2.1 c10removed (.byId 0) (.byId 1) none none
      c10added 1 rfl,
    by decide, by decide⟩

/-! ## Claim C6: tombstone stability of `removeEdge` -/

theorem outSlots_of_node (g : Graph) (a b : Nat) (nd : GNode)
    (h : g.nodes[a]? = some nd) :
    outSlots g a b = (alGet nd.meta.out b).getD [] := by
  simp [outSlots, h]

theorem innSlots_of_node (g : Graph) (a b : Nat) (nd : GNode)
    (h : g.nodes[a]? = some nd) :
    innSlots g a b = (alGet nd.meta.inn b).getD [] := by
  simp [innSlots, h]

theorem outSlots_congr (g1 g2 : Graph) (a b : Nat)
    (h : g1.nodes[a]? = g2.nodes[a]?) : outSlots g1 a b = outSlots g2 a b := by
  simp [outSlots, h]

theorem innSlots_congr (g1 g2 : Graph) (a b : Nat)
    (h : g1.nodes[a]? = g2.nodes[a]?) : innSlots g1 a b = innSlots g2 a b := by
  simp [innSlots, h]

/-- Frame conclusions of a tombstone removal, derived from a slot-level
characterization of the post-state. -/
theorem slots_frame (g g' : Graph) (msrc mdst mfromi mtoi e : Nat)
    (outL innL : List (Option Nat))
    (houtSlot : outL[mfromi]? = some (some e))
    (hinnSlot : innL[mtoi]? = some (some e))
    (houtg : outSlots g msrc mdst = outL)
    (hinng : innSlots g mdst msrc = innL)
    (hgout : ∀ a b : Nat, outSlots g' a b =
      if a = msrc ∧ b = mdst then outL.set mfromi none else outSlots g a b)
    (hginn : ∀ a b : Nat, innSlots g' a b =
      if a = mdst ∧ b = msrc then innL.set mtoi none else innSlots g a b) :
    (∀ (a b i e' : Nat), e' ≠ e → (outSlots g a b)[i]? = some (some e') →
        (outSlots g' a b)[i]? = some (some e'))
    ∧ (∀ (a b i e' : Nat), e' ≠ e → (innSlots g a b)[i]? = some (some e') →
        (innSlots g' a b)[i]? = some (some e'))
    ∧ (outSlots g' msrc mdst)[mfromi]? = some none
    ∧ (innSlots g' mdst msrc)[mtoi]? = some none
    ∧ (∀ (a b : Nat), (outSlots g' a b).length = (outSlots g a b).length
        ∧ (innSlots g' a b).length = (innSlots g a b).length) := by
  have hfromlt : mfromi < outL.length := (List.getElem?_eq_some_iff.mp houtSlot).1
  have htoilt : mtoi < innL.length := (List.getElem?_eq_some_iff.mp hinnSlot).1
  refine ⟨?_, ?_, ?_, ?_, ?_⟩
  · intro a b i e' hne hold
    rw [hgout a b]
    split
    next hab =>
      obtain ⟨ha, hb⟩ := hab
      subst ha
      subst hb
      rw [houtg] at hold
      rcases eq_or_ne i mfromi with hi | hi
      · subst hi
        rw [houtSlot] at hold
        have hh : e = e' := by simpa using hold
        exact absurd hh.symm hne
      · rw [List.getElem?_set_ne (fun hh => hi hh.symm)]
        exact hold
    next => exact hold
  · intro a b i e' hne hold
    rw [hginn a b]
    split
    next hab =>
      obtain ⟨ha, hb⟩ := hab
      subst ha
      subst hb
      rw [hinng] at hold
      rcases eq_or_ne i mtoi with hi | hi
      · subst hi
        rw [hinnSlot] at hold
        have hh : e = e' := by simpa using hold
        exact absurd hh.symm hne
      · rw [List.getElem?_set_ne (fun hh => hi hh.symm)]
        exact hold
    next => exact hold
  · rw [hgout msrc mdst, if_pos ⟨rfl, rfl⟩]
    exact List.getElem?_set_eq_of_lt _ hfromlt
  · rw [hginn mdst msrc, if_pos ⟨rfl, rfl⟩]
    exact List.getElem?_set_eq_of_lt _ htoilt
  · intro a b
    constructor
    · rw [hgout a b]
      split
      next hab =>
        obtain ⟨ha, hb⟩ := hab
        subst ha
        subst hb
        rw [houtg]
        simp
      next => rfl
    · rw [hginn a b]
      split
      next hab =>
        obtain ⟨ha, hb⟩ := hab
        subst ha
        subst hb
        rw [hinng]
        simp
      next => rfl

/-- C6: removing an edge through a held payload object clears exactly the
two adjacency slots recorded in its bookkeeping and the edge slot itself;
every other adjacency position (in either direction, of any node) is
unchanged in place, every other edge id still resolves to the same payload,
and a second removal through the same object fails reporting the edge as
already removed. -/
theorem removeEdge_tombstone (g : Graph) (e r : Nat) (pl : EPayload)
    (m : EdgeMeta) (nf nt : GNode) (outL innL : List (Option Nat))
    (he : g.edges[e]? = some (some r))
    (hr : g.estore[r]? = some pl)
    (hm : pl.meta = some m) (hid : m.id = e)
    (hnf : g.nodes[m.src]? = some nf)
    (hout : alGet nf.meta.out m.dst = some outL)
    (houtSlot : outL[m.fromi]? = some (some e))
    (hnt : g.nodes[m.dst]? = some nt)
    (hinn : alGet nt.meta.inn m.src = some innL)
    (hinnSlot : innL[m.toi]? = some (some e))
    (g' : Graph)
    (hsucc : removeEdge g (.byObj r) = .ok g') :
    (∀ (a b i e' : Nat), e' ≠ e → (outSlots g a b)[i]? = some (some e') →
        (outSlots g' a b)[i]? = some (some e'))
    ∧ (∀ (a b i e' : Nat), e' ≠ e → (innSlots g a b)[i]? = some (some e') →
        (innSlots g' a b)[i]? = some (some e'))
    ∧ (outSlots g' m.src m.dst)[m.fromi]? = some none
    ∧ (innSlots g' m.dst m.src)[m.toi]? = some none
    ∧ (∀ (a b : Nat), (outSlots g' a b).length = (outSlots g a b).length
        ∧ (innSlots g' a b).length = (innSlots g a b).length)
    ∧ (∀ (e' : Nat), e' ≠ e → g'.edges[e']? = g.edges[e']?
        ∧ payloadData g' e' = payloadData g e')
    ∧ g'.edges[e]? = some none
    ∧ removeEdge g' (.byObj r) =
        .error ("Edge " ++ toString e ++ " has already been removed") := by
  obtain ⟨mid, midx, msrc, mfromi, mdst, mtoi⟩ := m
  simp only at hid hnf hout houtSlot hnt hinn hinnSlot ⊢
  subst mid
  have hsrclt : msrc < g.nodes.length := (List.getElem?_eq_some_iff.mp hnf).1
  have hdstlt : mdst < g.nodes.length := (List.getElem?_eq_some_iff.mp hnt).1
  have helt : e < g.edges.length := (List.getElem?_eq_some_iff.mp he).1
  simp only [removeEdge, hr, hm, he] at hsucc
  rw [if_neg (by simp)] at hsucc
  rw [hnf] at hsucc
  repeat' split at hsucc
  all_goals try exact Except.noConfusion hsucc
  rename_i x3 nf' heq3 x2 outL' heq2 x1 nt1 heq1 x0 innL' heq0
  have hnf' : nf' = nf := by injection heq3 with hh; exact hh.symm
  subst nf'
  rw [hout] at heq2
  have houtL' : outL' = outL := by injection heq2 with hh; exact hh.symm
  subst outL'
  simp only [Except.ok.injEq] at hsucc
  -- keep the final graph abstract and remember its value
  -- split on whether the edge is a self loop
  by_cases hss : mdst = msrc
  · subst hss
    -- the second node read sees the already-updated source node
    rw [setGNode] at heq1
    rw [List.getElem?_set_eq_of_lt _ hsrclt] at heq1
    have hnt1 : nt1 = { nf with meta := { nf.meta with
        out := alSet nf.meta.out mdst (outL.set mfromi none) } } := by
      injection heq1 with hh; exact hh.symm
    subst nt1
    have hntnf : nt = nf := by
      have := hnf.symm.trans hnt
      simpa using this.symm
    subst nt
    simp only at heq0
    rw [hinn] at heq0
    have hinnL' : innL' = innL := by injection heq0 with hh; exact hh.symm
    subst innL'
    have hnodes : ∀ a : Nat, g'.nodes[a]? =
        if a = mdst then some { nf with meta := { nf.meta with
            out := alSet nf.meta.out mdst (outL.set mfromi none),
            inn := alSet nf.meta.inn mdst (innL.set mtoi none) } }
        else g.nodes[a]? := by
      intro a
      rw [← hsucc]
      rcases eq_or_ne a mdst with ha | ha
      · rw [if_pos ha]
        subst a
        simp only [setGNode, List.set_set]
        exact List.getElem?_set_eq_of_lt _ hsrclt
      · rw [if_neg ha]
        simp only [setGNode, List.set_set]
        exact List.getElem?_set_ne (fun hh => ha hh.symm)
    have hedges : g'.edges = g.edges.set e none := by
      rw [← hsucc]
      rfl
    have hestore : g'.estore = g.estore := by
      rw [← hsucc]
      rfl
    have houtg : outSlots g mdst mdst = outL := by
      rw [outSlots_of_node g mdst mdst nf hnf, hout]; rfl
    have hinng : innSlots g mdst mdst = innL := by
      rw [innSlots_of_node g mdst mdst nf hnf, hinn]; rfl
    have hgout : ∀ a b : Nat, outSlots g' a b =
        if a = mdst ∧ b = mdst then outL.set mfromi none else outSlots g a b := by
      intro a b
      rcases eq_or_ne a mdst with ha | ha
      · subst a
        rw [outSlots_of_node g' mdst b _ (by rw [hnodes mdst, if_pos rfl])]
        rcases eq_or_ne b mdst with hb | hb
        · subst b
          rw [if_pos ⟨rfl, rfl⟩]
          simp [alGet_alSet_self]
        · rw [if_neg (fun hh => hb hh.2)]
          rw [alGet_alSet_ne _ _ _ _ hb]
          rw [outSlots_of_node g mdst b nf hnf]
      · rw [if_neg (fun hh => ha hh.1)]
        exact outSlots_congr g' g a b (by rw [hnodes a, if_neg ha])
    have hginn : ∀ a b : Nat, innSlots g' a b =
        if a = mdst ∧ b = mdst then innL.set mtoi none else innSlots g a b := by
      intro a b
      rcases eq_or_ne a mdst with ha | ha
      · subst a
        rw [innSlots_of_node g' mdst b _ (by rw [hnodes mdst, if_pos rfl])]
        rcases eq_or_ne b mdst with hb | hb
        · subst b
          rw [if_pos ⟨rfl, rfl⟩]
          simp [alGet_alSet_self]
        · rw [if_neg (fun hh => hb hh.2)]
          rw [alGet_alSet_ne _ _ _ _ hb]
          rw [innSlots_of_node g mdst b nf hnf]
      · rw [if_neg (fun hh => ha hh.1)]
        exact innSlots_congr g' g a b (by rw [hnodes a, if_neg ha])
    obtain ⟨f1, f2, f3, f4, f5⟩ := slots_frame g g' mdst mdst mfromi mtoi e outL innL
      houtSlot hinnSlot houtg hinng hgout hginn
    have hetomb : g'.edges[e]? = some none := by
      rw [hedges]
      exact List.getElem?_set_eq_of_lt _ helt
    refine ⟨f1, f2, f3, f4, f5, ?_, hetomb, ?_⟩
    · intro e' hne
      have hkeep : g'.edges[e']? = g.edges[e']? := by
        rw [hedges]
        exact List.getElem?_set_ne (fun hh => hne hh.symm)
      exact ⟨hkeep, by simp [payloadData, edgeRefOf, hkeep, hestore]⟩
    · have hrr : g'.estore[r]? = some pl := by rw [hestore]; exact hr
      simp only [removeEdge, hrr, hm, hetomb]
      rw [if_pos ⟨rfl, by rw [hedges]; simp; omega⟩]
  · -- distinct endpoints: the second node read is untouched by the first update
    rw [setGNode] at heq1
    rw [List.getElem?_set_ne (fun hh => hss hh.symm)] at heq1
    rw [hnt] at heq1
    have hnt1 : nt1 = nt := by injection heq1 with hh; exact hh.symm
    subst nt1
    rw [hinn] at heq0
    have hinnL' : innL' = innL := by injection heq0 with hh; exact hh.symm
    subst innL'
    have hnodes : ∀ a : Nat, g'.nodes[a]? =
        if a = mdst then some { nt with meta := { nt.meta with
            inn := alSet nt.meta.inn msrc (innL.set mtoi none) } }
        else if a = msrc then some { nf with meta := { nf.meta with
            out := alSet nf.meta.out mdst (outL.set mfromi none) } }
        else g.nodes[a]? := by
      intro a
      rw [← hsucc]
      rcases eq_or_ne a mdst with ha | ha
      · rw [if_pos ha]
        subst a
        simp only [setGNode]
        exact List.getElem?_set_eq_of_lt _ (by simpa using hdstlt)
      · rw [if_neg ha]
        rcases eq_or_ne a msrc with ha2 | ha2
        · rw [if_pos ha2]
          subst a
          simp only [setGNode]
          rw [List.getElem?_set_ne (fun hh => ha hh.symm)]
          exact List.getElem?_set_eq_of_lt _ hsrclt
        · rw [if_neg ha2]
          simp only [setGNode]
          rw [List.getElem?_set_ne (fun hh => ha hh.symm)]
          exact List.getElem?_set_ne (fun hh => ha2 hh.symm)
    have hedges : g'.edges = g.edges.set e none := by
      rw [← hsucc]
      rfl
    have hestore : g'.estore = g.estore := by
      rw [← hsucc]
      rfl
    have houtg : outSlots g msrc mdst = outL := by
      rw [outSlots_of_node g msrc mdst nf hnf, hout]; rfl
    have hinng : innSlots g mdst msrc = innL := by
      rw [innSlots_of_node g mdst msrc nt hnt, hinn]; rfl
    have hgout : ∀ a b : Nat, outSlots g' a b =
        if a = msrc ∧ b = mdst then outL.set mfromi none else outSlots g a b := by
      intro a b
      rcases eq_or_ne a mdst with ha | ha
      · subst a
        rw [if_neg (fun hh => hss hh.1)]
        refine (outSlots_of_node g' mdst b _ (by rw [hnodes mdst, if_pos rfl])).trans ?_
        rw [outSlots_of_node g mdst b nt hnt]
      · rcases eq_or_ne a msrc with ha2 | ha2
        · subst a
          rw [outSlots_of_node g' msrc b _
            (by rw [hnodes msrc, if_neg (fun hh => hss hh.symm), if_pos rfl])]
          rcases eq_or_ne b mdst with hb | hb
          · subst b
            rw [if_pos ⟨rfl, rfl⟩]
            simp [alGet_alSet_self]
          · rw [if_neg (fun hh => hb hh.2)]
            rw [alGet_alSet_ne _ _ _ _ hb]
            rw [outSlots_of_node g msrc b nf hnf]
        · rw [if_neg (fun hh => ha2 hh.1)]
          exact outSlots_congr g' g a b (by rw [hnodes a, if_neg ha, if_neg ha2])
    have hginn : ∀ a b : Nat, innSlots g' a b =
        if a = mdst ∧ b = msrc then innL.set mtoi none else innSlots g a b := by
      intro a b
      rcases eq_or_ne a mdst with ha | ha
      · subst a
        rw [innSlots_of_node g' mdst b _ (by rw [hnodes mdst, if_pos rfl])]
        rcases eq_or_ne b msrc with hb | hb
        · subst b
          rw [if_pos ⟨rfl, rfl⟩]
          simp [alGet_alSet_self]
        · rw [if_neg (fun hh => hb hh.2)]
          rw [alGet_alSet_ne _ _ _ _ hb]
          rw [innSlots_of_node g mdst b nt hnt]
      · rw [if_neg (fun hh => ha hh.1)]
        rcases eq_or_ne a msrc with ha2 | ha2
        · subst a
          refine (innSlots_of_node g' msrc b _
            (by rw [hnodes msrc, if_neg (fun hh => hss hh.symm), if_pos rfl])).trans ?_
          rw [innSlots_of_node g msrc b nf hnf]
        · exact innSlots_congr g' g a b (by rw [hnodes a, if_neg ha, if_neg ha2])
    obtain ⟨f1, f2, f3, f4, f5⟩ := slots_frame g g' msrc mdst mfromi mtoi e outL innL
      houtSlot hinnSlot houtg hinng hgout hginn
    have hetomb : g'.edges[e]? = some none := by
      rw [hedges]
      exact List.getElem?_set_eq_of_lt _ helt
    refine ⟨f1, f2, f3, f4, f5, ?_, hetomb, ?_⟩
    · intro e' hne
      have hkeep : g'.edges[e']? = g.edges[e']? := by
        rw [hedges]
        exact List.getElem?_set_ne (fun hh => hne hh.symm)
      exact ⟨hkeep, by simp [payloadData, edgeRefOf, hkeep, hestore]⟩
    · have hrr : g'.estore[r]? = some pl := by rw [hestore]; exact hr
      simp only [removeEdge, hrr, hm, hetomb]
      rw [if_pos ⟨rfl, by rw [hedges]; simp; omega⟩]

/-- Witness for C6 at the concrete two-node graph: after the removal the
two adjacency slots are empty (not shifted) and a second removal through
the held payload object reports the edge as already removed. -/
theorem removeEdge_tombstone_witness :
    (outSlots c10removed 0 1)[0]? = some none
    ∧ (innSlots c10removed 1 0)[0]? = some none
    ∧ removeEdge c10removed (.byObj 0) =
        .error ("Edge " ++ toString 0 ++ " has already been removed") := by
  have h := removeEdge_tombstone c10base 0 0
    { data := { type := some "cond" },
      meta := some { id := 0, src := 0, fromi := 0, dst := 1, toi := 0 } }
    { id := 0, src := 0, fromi := 0, dst := 1, toi := 0 }
    { data := { type := "question" }, meta := { id := 0, out := [(1, [some 0])] } }
    { data := { type := "surcharge" }, meta := { id := 1, inn := [(0, [some 0])] } }
    [some 0] [some 0]
    rfl rfl rfl rfl rfl rfl rfl rfl rfl rfl c10removed rfl
  exact ⟨h.2.2.1, h.2.2.2.1, h.2.2.2.2.2.2.2⟩

/-! ## Claim C8: per-destination payload copies in the batch variants -/

theorem map_data_set_meta (store : List EPayload) (r : Nat) (pl : EPayload)
    (em : Option EdgeMeta) (h : store[r]? = some pl) (ρ : Nat) :
    ((store.set r { pl with meta := em })[ρ]?).map EPayload.data =
      (store[ρ]?).map EPayload.data := by
  rcases eq_or_ne ρ r with hρ | hρ
  · subst ρ
    rw [List.getElem?_set_eq_of_lt _ (List.getElem?_eq_some_iff.mp h).1, h]
    rfl
  · rw [List.getElem?_set_ne (fun hh => hρ hh.symm)]

/-- Frame facts of a successful `addEdgeAt`: the fresh edge id, the edge
array extended by a reference to the given payload, and the payload store
unchanged in length and in every data field (only bookkeeping is written).
-/
theorem addEdgeAt_frame (g : Graph) (a b : NodeRef) (r : Nat)
    (k : Option String) (g' : Graph) (e : Nat)
    (h : addEdgeAt g a b r k = .ok (g', e)) :
    e = g.edges.length ∧ g'.edges = g.edges ++ [some r]
    ∧ g'.estore.length = g.estore.length
    ∧ (∀ ρ : Nat, (g'.estore[ρ]?).map EPayload.data =
        (g.estore[ρ]?).map EPayload.data) := by
  simp only [addEdgeAt] at h
  split at h
  next => exact Except.noConfusion h
  next ia nfa hla =>
  split at h
  next => exact Except.noConfusion h
  next ib nb hlb =>
  split at h
  next => exact Except.noConfusion h
  next hnoconf =>
  split at h
  next => exact Except.noConfusion h
  next nt1 hnt1 =>
  split at h
  next => exact Except.noConfusion h
  next pl hpl =>
  have hpl0 : g.estore[r]? = some pl := by simpa [setGNode] using hpl
  split at h
  next s hidx =>
    split at h
    next => exact Except.noConfusion h
    next nf3 hnf3 =>
      simp only [Except.ok.injEq, Prod.mk.injEq] at h
      obtain ⟨hg, he⟩ := h
      subst hg
      exact ⟨he.symm, by simp [setGNode], by simp [setGNode],
        fun ρ => by
          simp only [setGNode]
          exact map_data_set_meta g.estore r pl _ hpl0 ρ⟩
  next hidx =>
    simp only [Except.ok.injEq, Prod.mk.injEq] at h
    obtain ⟨hg, he⟩ := h
    subst hg
    exact ⟨he.symm, by simp [setGNode], by simp [setGNode],
      fun ρ => by
        simp only [setGNode]
        exact map_data_set_meta g.estore r pl _ hpl0 ρ⟩

/-- Post-state of a successful `addEdges`: the returned ids are the
consecutive fresh edge positions, each referencing its own freshly
allocated payload object (one allocation per destination), with earlier
edge slots untouched. -/
theorem addEdges_post (a : NodeRef) (d : Option EdgeData) (k : Option String) :
    ∀ (tos : List NodeRef) (g g' : Graph) (ids : List Nat),
    addEdges g a tos d k = .ok (g', ids) →
    ids = (List.range tos.length).map (fun j => g.edges.length + j)
    ∧ g'.edges.length = g.edges.length + tos.length
    ∧ g'.estore.length = g.estore.length + tos.length
    ∧ (∀ j : Nat, j < tos.length →
        edgeRefOf g' (g.edges.length + j) = some (g.estore.length + j))
    ∧ (∀ i : Nat, i < g.edges.length → g'.edges[i]? = g.edges[i]?) := by
  intro tos
  induction tos with
  | nil =>
    intro g g' ids h
    simp only [addEdges, Except.ok.injEq, Prod.mk.injEq] at h
    obtain ⟨hg, hi⟩ := h
    subst hg
    subst hi
    simp
  | cons t ts ih =>
    intro g g' ids h
    simp only [addEdges] at h
    split at h
    next => exact Except.noConfusion h
    next g2 eid hadd =>
    split at h
    next => exact Except.noConfusion h
    next g3 eids hrec =>
    simp only [Except.ok.injEq, Prod.mk.injEq] at h
    obtain ⟨hg, hi⟩ := h
    subst hg
    subst hi
    have hfr := addEdgeAt_frame (allocPayload g (d.getD {})).1 a t
      (allocPayload g (d.getD {})).2 k g2 eid hadd
    obtain ⟨heid, hedges2, hstore2, hdata2⟩ := hfr
    have halloc1 : (allocPayload g (d.getD {})).1.edges = g.edges := rfl
    have halloc2 : (allocPayload g (d.getD {})).1.estore.length
        = g.estore.length + 1 := by simp [allocPayload]
    have halloc3 : (allocPayload g (d.getD {})).2 = g.estore.length := rfl
    rw [halloc1] at heid hedges2
    rw [halloc3] at hedges2
    rw [halloc2] at hstore2
    obtain ⟨hids, hlen3, hstore3, hrefs3, hkeep3⟩ := ih g2 g3 eids hrec
    have hlen2 : g2.edges.length = g.edges.length + 1 := by
      rw [hedges2]; simp
    refine ⟨?_, ?_, ?_, ?_, ?_⟩
    · subst eid
      subst eids
      rw [List.length_cons, List.range_succ_eq_map, List.map_cons, List.map_map]
      congr 1
      rw [hlen2]
      refine List.map_congr_left ?_
      intro j hj
      simp [Function.comp]
      omega
    · rw [hlen3, hlen2]
      simp
      omega
    · rw [hstore3, hstore2]
      simp
      omega
    · intro j hj
      cases j with
      | zero =>
        have hhit : g2.edges[g.edges.length]? = some (some g.estore.length) := by
          rw [hedges2]
          exact List.getElem?_concat_length _ _
        have hpres : g3.edges[g.edges.length]? = some (some g.estore.length) := by
          rw [hkeep3 g.edges.length (by omega)]
          exact hhit
        simp [edgeRefOf, hpres]
      | succ j0 =>
        have hj0 : j0 < ts.length := by simpa using hj
        have hx := hrefs3 j0 hj0
        rw [hlen2, hstore2] at hx
        have harith : g.edges.length + (j0 + 1) = g.edges.length + 1 + j0 := by omega
        have harith2 : g.estore.length + (j0 + 1) = g.estore.length + 1 + j0 := by omega
        rw [harith, harith2]
        exact hx
    · intro i hi
      rw [hkeep3 i (by omega), hedges2]
      exact List.getElem?_append_left hi

/-- C8 (amended): `addEdges` gives every destination its own payload copy,
so mutating a payload field through one resulting edge never changes the
payload seen through a sibling edge of the same call. -/
theorem addEdges_payload_isolated (g : Graph) (a : NodeRef) (tos : List NodeRef)
    (d : Option EdgeData) (k : Option String) (g' : Graph) (ids : List Nat)
    (h : addEdges g a tos d k = .ok (g', ids)) :
    ∀ (i j : Nat), i < ids.length → j < ids.length → i ≠ j →
    ∀ f : EdgeData → EdgeData,
      payloadData (setEdgeData g' (ids.getD i 0) f) (ids.getD j 0)
        = payloadData g' (ids.getD j 0) := by
  obtain ⟨hids, hlen, hslen, hrefs, hkeep⟩ := addEdges_post a d k tos g g' ids h
  intro i j hi hj hij f
  have hlenids : ids.length = tos.length := by rw [hids]; simp
  have hgetd : ∀ m : Nat, m < ids.length → ids.getD m 0 = g.edges.length + m := by
    intro m hm
    rw [hids]
    rw [hids, List.length_map, List.length_range] at hm
    rw [List.getD_eq_getElem?_getD, List.getElem?_map, List.getElem?_range hm]
    rfl
  have hgi := hgetd i hi
  have hgj := hgetd j hj
  have hrefi : edgeRefOf g' (g.edges.length + i) = some (g.estore.length + i) :=
    hrefs i (by omega)
  have hrefj : edgeRefOf g' (g.edges.length + j) = some (g.estore.length + j) :=
    hrefs j (by omega)
  rw [hgi, hgj]
  rcases hsi : g'.estore[g.estore.length + i]? with _ | pli
  · simp [setEdgeData, hrefi, hsi]
  · simp only [setEdgeData, hrefi, hsi]
    simp only [payloadData, edgeRefOf]
    have hrefj' : (g'.edges[g.edges.length + j]?).join = some (g.estore.length + j) :=
      hrefj
    rw [hrefj']
    simp only [Option.some_bind]
    rw [List.getElem?_set_ne (fun hh => hij (by omega))]

/-- Shared payload for the C8 counterexample: one object literal passed to
`addEdgesIfNew` for two destinations. -/
def c8alloc : Graph × Nat :=
  allocPayload c4base { type := some "cond", pred := some "A" }

def c8shared : Graph :=
  match addEdgesIfNew c8alloc.1 (.byId 0) [.byId 1, .byId 2]
      (some c8alloc.2) none with
  | .ok (g, _) => g
  | .error _ => c8alloc.1

/-- Counterexample to C8 as stated: the two edges created by one
`addEdgesIfNew` call share the same payload object, so setting `pred`
through edge 0 changes what edge 1 resolves to. -/
theorem addEdgesIfNew_shared_payload_counterexample :
    addEdgesIfNew c8alloc.1 (.byId 0) [.byId 1, .byId 2] (some c8alloc.2) none
      = .ok (c8shared, [0, 1])
    ∧ payloadData c8shared 1 = some { type := some "cond", pred := some "A" }
    ∧ payloadData (setEdgeData c8shared 0 (fun dd => { dd with pred := some "B" })) 1
        = some { type := some "cond", pred := some "B" } := by
  refine ⟨rfl, by decide, by decide⟩

def c8copies : Graph :=
  match addEdges c4base (.byId 0) [.byId 1, .byId 2]
      (some { type := some "cond", pred := some "A" }) none with
  | .ok (g, _) => g
  | .error _ => c4base

/-- Witness for the amended C8 theorem at a concrete `addEdges` call:
mutating the payload of edge 0 leaves the payload of its sibling edge 1
untouched. -/
theorem addEdges_payload_isolated_witness :
    payloadData (setEdgeData c8copies 0 (fun dd => { dd with pred := some "B" })) 1
      = payloadData c8copies 1 := by
  have h := addEdges_payload_isolated c4base (.byId 0) [.byId 1, .byId 2]
    (some { type := some "cond", pred := some "A" }) none c8copies [0, 1] rfl
    0 1 (by decide) (by decide) (by decide)
    (fun dd => { dd with pred := some "B" })
  simpa using h

/-! ## SpecEvaluator: class-input propagation (`_calcClassIns`)

The per-node `class_in` objects (sets of class-code strings stored on
`node.data.class_in`) are represented as one association list from node id
to `Finset String`; an absent entry is an unset (falsy) `class_in`.  The
adjacency reads of `_calcClassIns` are extracted from the graph: the parent
list is the in-neighbour ids whose node type is `question`, the direct set
collects `enode.data.class` over in-neighbours of type `class` (JS
stringifies an absent class field to the key `undefined`).  Both are read
from the in-adjacency KEYS, exactly as the source does via the lazy views
(a neighbour whose edges are all tombstoned still appears). -/

def nodeTypeOf (g : Graph) (n : Nat) : Option String :=
  (g.nodes[n]?).map (fun nd => nd.data.type)

def inKeys (g : Graph) (n : Nat) : List Nat :=
  ((g.nodes[n]?).map (fun nd => nd.meta.inn.map Prod.fst)).getD []

def outKeys (g : Graph) (n : Nat) : List Nat :=
  ((g.nodes[n]?).map (fun nd => nd.meta.out.map Prod.fst)).getD []

def gParents (g : Graph) (n : Nat) : List Nat :=
  (inKeys g n).filter (fun q => nodeTypeOf g q == some "question")

def gDirectList (g : Graph) (n : Nat) : List String :=
  (inKeys g n).filterMap (fun q =>
    match g.nodes[q]? with
    | some nd =>
      if nd.data.type = "class" then some (nd.data.cls.getD "undefined") else none
    | none => none)

def gDirect (g : Graph) (n : Nat) : Finset String := (gDirectList g n).toFinset

theorem gParents_nil_of_le (g : Graph) (n : Nat) (h : g.nodes.length ≤ n) :
    gParents g n = [] := by
  simp [gParents, inKeys, List.getElem?_eq_none h]

/-- Union of a set-valued function over a list (the object-key unions the
source builds by assignment). -/
def unionMap (f : Nat → Finset String) : List Nat → Finset String
  | [] => ∅
  | x :: t => f x ∪ unionMap f t

theorem unionMap_congr (f h : Nat → Finset String) (l : List Nat)
    (hfh : ∀ x ∈ l, f x = h x) : unionMap f l = unionMap h l := by
  induction l with
  | nil => rfl
  | cons x t ih =>
    simp only [unionMap]
    rw [hfh x (List.mem_cons_self x t), ih (fun y hy => hfh y (List.mem_cons_of_mem x hy))]

/-- Fuelled reachable-classes function: the unique solution of the
propagation equations on an acyclic parent relation. -/
def reachF (direct : Nat → Finset String) (par : Nat → List Nat) :
    Nat → Nat → Finset String
  | 0, n => direct n
  | fuel+1, n => direct n ∪ unionMap (reachF direct par fuel) (par n)

theorem reachF_stab (direct : Nat → Finset String) (par : Nat → List Nat)
    (rank : Nat → Nat) (hrank : ∀ n q, q ∈ par n → rank q < rank n) :
    ∀ (fuel n : Nat), rank n ≤ fuel →
      reachF direct par (fuel+1) n = reachF direct par fuel n := by
  intro fuel
  induction fuel with
  | zero =>
    intro n hn
    have hpar : par n = [] := by
      cases hp : par n with
      | nil => rfl
      | cons q t =>
        have := hrank n q (by rw [hp]; exact List.mem_cons_self _ _)
        omega
    simp [reachF, hpar, unionMap]
  | succ m ih =>
    intro n hn
    show direct n ∪ unionMap (reachF direct par (m+1)) (par n)
      = direct n ∪ unionMap (reachF direct par m) (par n)
    rw [unionMap_congr _ _ _ (fun q hq => ih q (by have := hrank n q hq; omega))]

theorem reachF_add (direct : Nat → Finset String) (par : Nat → List Nat)
    (rank : Nat → Nat) (hrank : ∀ n q, q ∈ par n → rank q < rank n) :
    ∀ (k n : Nat), reachF direct par (rank n + k) n = reachF direct par (rank n) n := by
  intro k
  induction k with
  | zero => intro n; rfl
  | succ m ih =>
    intro n
    rw [show rank n + (m+1) = (rank n + m) + 1 by omega,
      reachF_stab direct par rank hrank (rank n + m) n (by omega), ih n]

theorem reachF_fuel_irrel (direct : Nat → Finset String) (par : Nat → List Nat)
    (rank : Nat → Nat) (hrank : ∀ n q, q ∈ par n → rank q < rank n)
    (f1 f2 n : Nat) (h1 : rank n ≤ f1) (h2 : rank n ≤ f2) :
    reachF direct par f1 n = reachF direct par f2 n := by
  rw [show f1 = rank n + (f1 - rank n) by omega,
    reachF_add direct par rank hrank _ n,
    show f2 = rank n + (f2 - rank n) by omega,
    reachF_add direct par rank hrank _ n]

theorem reach_fixpoint (direct : Nat → Finset String) (par : Nat → List Nat)
    (rank : Nat → Nat) (hrank : ∀ n q, q ∈ par n → rank q < rank n) (n : Nat) :
    reachF direct par (rank n) n
      = direct n ∪ unionMap (fun q => reachF direct par (rank q) q) (par n) := by
  rw [← reachF_stab direct par rank hrank (rank n) n le_rfl]
  show direct n ∪ unionMap (reachF direct par (rank n)) (par n) = _
  rw [unionMap_congr _ _ _ (fun q hq =>
    reachF_fuel_irrel direct par rank hrank (rank n) (rank q) q
      (le_of_lt (hrank n q hq)) le_rfl)]

/-- The parent fold of `_calcClassIns`: walk the parent list, recursing
when a parent has no `class_in` yet, then union its `class_in` into the
accumulator seeded with the direct classes. -/
def calcParentsAux
    (recur : Nat → List (Nat × Finset String) → Option (List (Nat × Finset String))) :
    List Nat → List (Nat × Finset String) → Finset String →
      Option (List (Nat × Finset String) × Finset String)
  | [], st, acc => some (st, acc)
  | p :: ps, st, acc =>
    match (match alGet st p with | some _ => some st | none => recur p st) with
    | none => none
    | some st2 =>
      match alGet st2 p with
      | none => none
      | some v => calcParentsAux recur ps st2 (acc ∪ v)

/-- `_calcClassIns`, fuelled: the source recursion is unbounded (a cyclic
parent chain would overflow the stack, modelled by fuel exhaustion). -/
def calcClassIns (direct : Nat → Finset String) (par : Nat → List Nat) :
    Nat → Nat → List (Nat × Finset String) → Option (List (Nat × Finset String))
  | 0, _, _ => none
  | fuel+1, n, st =>
    match calcParentsAux (calcClassIns direct par fuel) (par n) st (direct n) with
    | none => none
    | some (st2, acc) => some (alSet st2 n acc)

/-- Running `_calcClassIns` over a list of nodes in order (the evaluator
calls it for every question node during its single traversal). -/
def classInsPass (direct : Nat → Finset String) (par : Nat → List Nat)
    (fuel : Nat) : List Nat → List (Nat × Finset String) →
      Option (List (Nat × Finset String))
  | [], st => some st
  | q :: qs, st =>
    match calcClassIns direct par fuel q st with
    | none => none
    | some st2 => classInsPass direct par fuel qs st2

/-- Every entry of the `class_in` state holds the reachable-classes value
of its node. -/
def GoodSt (direct : Nat → Finset String) (par : Nat → List Nat)
    (rank : Nat → Nat) (st : List (Nat × Finset String)) : Prop :=
  ∀ n v, alGet st n = some v → v = reachF direct par (rank n) n

theorem calcParentsAux_mono
    (recur : Nat → List (Nat × Finset String) → Option (List (Nat × Finset String)))
    (hrec : ∀ q st st', recur q st = some st' →
      ∀ m, (alGet st m).isSome → (alGet st' m).isSome) :
    ∀ (ps : List Nat) st acc st' acc',
      calcParentsAux recur ps st acc = some (st', acc') →
      ∀ m, (alGet st m).isSome → (alGet st' m).isSome := by
  intro ps
  induction ps with
  | nil =>
    intro st acc st' acc' h m hm
    simp only [calcParentsAux, Option.some.injEq, Prod.mk.injEq] at h
    rw [← h.1]
    exact hm
  | cons p ps ih =>
    intro st acc st' acc' h m hm
    simp only [calcParentsAux] at h
    split at h
    next => exact Option.noConfusion h
    next st2 hst2 =>
    split at h
    next => exact Option.noConfusion h
    next v hv =>
    refine ih st2 (acc ∪ v) st' acc' h m ?_
    split at hst2
    next => rw [← Option.some.injEq st st2 |>.mp hst2]; exact hm
    next hmiss => exact hrec p st st2 hst2 m hm

theorem calcClassIns_mono (direct : Nat → Finset String) (par : Nat → List Nat) :
    ∀ (fuel n : Nat) st st', calcClassIns direct par fuel n st = some st' →
      ∀ m, (alGet st m).isSome → (alGet st' m).isSome := by
  intro fuel
  induction fuel with
  | zero => intro n st st' h; exact Option.noConfusion h
  | succ f ih =>
    intro n st st' h m hm
    simp only [calcClassIns] at h
    split at h
    next => exact Option.noConfusion h
    next st2 acc haux =>
    simp only [Option.some.injEq] at h
    rw [← h]
    exact alGet_alSet_isSome _ _ _ _
      (calcParentsAux_mono _ (fun q s s' hq => ih q s s' hq) (par n) st (direct n)
        st2 acc haux m hm)

theorem calcParentsAux_sound (direct : Nat → Finset String) (par : Nat → List Nat)
    (rank : Nat → Nat)
    (recur : Nat → List (Nat × Finset String) → Option (List (Nat × Finset String)))
    (hrecmono : ∀ q st st', recur q st = some st' →
      ∀ m, (alGet st m).isSome → (alGet st' m).isSome)
    (hrec : ∀ q st st', GoodSt direct par rank st → recur q st = some st' →
      GoodSt direct par rank st' ∧ alGet st' q = some (reachF direct par (rank q) q)) :
    ∀ (ps : List Nat) st acc st' acc', GoodSt direct par rank st →
      calcParentsAux recur ps st acc = some (st', acc') →
      GoodSt direct par rank st'
      ∧ acc' = acc ∪ unionMap (fun q => reachF direct par (rank q) q) ps
      ∧ ∀ q ∈ ps, (alGet st' q).isSome := by
  intro ps
  induction ps with
  | nil =>
    intro st acc st' acc' hg h
    simp only [calcParentsAux, Option.some.injEq, Prod.mk.injEq] at h
    obtain ⟨h1, h2⟩ := h
    subst h1
    subst h2
    exact ⟨hg, by simp [unionMap], by simp⟩
  | cons p ps ih =>
    intro st acc st' acc' hg h
    simp only [calcParentsAux] at h
    split at h
    next => exact Option.noConfusion h
    next st2 hst2 =>
    split at h
    next => exact Option.noConfusion h
    next v hv =>
    have hstep : GoodSt direct par rank st2
        ∧ (alGet st2 p).isSome := by
      split at hst2
      next w hw =>
        have : st2 = st := (Option.some.injEq st st2 |>.mp hst2).symm
        subst this
        exact ⟨hg, by rw [hw]; rfl⟩
      next hmiss =>
        obtain ⟨hg2, hp2⟩ := hrec p st st2 hg hst2
        exact ⟨hg2, by rw [hp2]; rfl⟩
    obtain ⟨hg2, _⟩ := hstep
    have hvval : v = reachF direct par (rank p) p := hg2 p v hv
    obtain ⟨hg', hacc, hsomes⟩ := ih st2 (acc ∪ v) st' acc' hg2 h
    refine ⟨hg', ?_, ?_⟩
    · rw [hacc, hvval]
      simp only [unionMap]
      rw [Finset.union_assoc]
    · intro q hq
      rcases List.mem_cons.mp hq with hq | hq
      · subst hq
        exact calcParentsAux_mono recur hrecmono ps st2 (acc ∪ v) st' acc' h q
          (by rw [hv]; rfl)
      · exact hsomes q hq

theorem calcClassIns_sound (direct : Nat → Finset String) (par : Nat → List Nat)
    (rank : Nat → Nat) (hrank : ∀ n q, q ∈ par n → rank q < rank n) :
    ∀ (fuel n : Nat) st st', GoodSt direct par rank st →
      calcClassIns direct par fuel n st = some st' →
      GoodSt direct par rank st'
      ∧ alGet st' n = some (reachF direct par (rank n) n)
      ∧ ∀ q ∈ par n, (alGet st' q).isSome := by
  intro fuel
  induction fuel with
  | zero => intro n st st' _ h; exact Option.noConfusion h
  | succ f ih =>
    intro n st st' hg h
    simp only [calcClassIns] at h
    split at h
    next => exact Option.noConfusion h
    next st2 acc haux =>
    simp only [Option.some.injEq] at h
    obtain ⟨hg2, hacc, hsomes⟩ := calcParentsAux_sound direct par rank _
      (fun q s s' hq => calcClassIns_mono direct par f q s s' hq)
      (fun q s s' hgs hq => ⟨(ih q s s' hgs hq).1, (ih q s s' hgs hq).2.1⟩)
      (par n) st (direct n) st2 acc hg haux
    have haccval : acc = reachF direct par (rank n) n := by
      rw [hacc, reach_fixpoint direct par rank hrank n]
    subst h
    refine ⟨?_, ?_, ?_⟩
    · intro m v hm
      rcases eq_or_ne m n with hmn | hmn
      · subst hmn
        rw [alGet_alSet_self] at hm
        rw [← Option.some.injEq acc v |>.mp hm, haccval]
      · rw [alGet_alSet_ne _ _ _ _ hmn] at hm
        exact hg2 m v hm
    · rw [alGet_alSet_self, haccval]
    · intro q hq
      exact alGet_alSet_isSome _ _ _ _ (hsomes q hq)

theorem classInsPass_mono (direct : Nat → Finset String) (par : Nat → List Nat)
    (fuel : Nat) :
    ∀ (qs : List Nat) st st', classInsPass direct par fuel qs st = some st' →
      ∀ m, (alGet st m).isSome → (alGet st' m).isSome := by
  intro qs
  induction qs with
  | nil =>
    intro st st' h m hm
    simp only [classInsPass, Option.some.injEq] at h
    rw [← h]
    exact hm
  | cons q qs ih =>
    intro st st' h m hm
    simp only [classInsPass] at h
    split at h
    next => exact Option.noConfusion h
    next st2 hst2 =>
    exact ih st2 st' h m (calcClassIns_mono direct par fuel q st st2 hst2 m hm)

theorem classInsPass_sound (direct : Nat → Finset String) (par : Nat → List Nat)
    (rank : Nat → Nat) (hrank : ∀ n q, q ∈ par n → rank q < rank n) (fuel : Nat) :
    ∀ (qs : List Nat) st st', GoodSt direct par rank st →
      classInsPass direct par fuel qs st = some st' →
      GoodSt direct par rank st'
      ∧ ∀ q ∈ qs, (alGet st' q).isSome ∧ ∀ p ∈ par q, (alGet st' p).isSome := by
  intro qs
  induction qs with
  | nil =>
    intro st st' hg h
    simp only [classInsPass, Option.some.injEq] at h
    rw [← h]
    exact ⟨hg, by simp⟩
  | cons q qs ih =>
    intro st st' hg h
    simp only [classInsPass] at h
    split at h
    next => exact Option.noConfusion h
    next st2 hst2 =>
    obtain ⟨hg2, hq2, hp2⟩ := calcClassIns_sound direct par rank hrank fuel q st st2 hg hst2
    obtain ⟨hg', hrest⟩ := ih st2 st' hg2 h
    refine ⟨hg', ?_⟩
    intro q' hq'
    rcases List.mem_cons.mp hq' with hq' | hq'
    · subst hq'
      refine ⟨classInsPass_mono direct par fuel qs st2 st' h q' (by rw [hq2]; rfl), ?_⟩
      intro p hp
      exact classInsPass_mono direct par fuel qs st2 st' h p (hp2 p hp)
    · exact hrest q' hq'

/-- C1: for every successful run of the class-input propagation (the
`_calcClassIns` calls the evaluator makes, in any visiting order and with
any recursion budget) over a graph whose question-parent relation is
acyclic, (1) every parent of a visited question has its `class_in`
computed, (2) the `class_in` of every visited question equals the union of
the class codes of its direct class in-neighbours with the `class_in` sets
of its parent questions, and (3) any two successful runs agree on every
question they both visit, so the result is independent of the visiting
order (memoized depth-first recursion yields the same set as any other
order). -/
theorem classIn_propagation_union_law (g : Graph) (rank : Nat → Nat)
    (hrank : ∀ n q, q ∈ gParents g n → rank q < rank n)
    (F : Nat) (order : List Nat) (st : List (Nat × Finset String))
    (hrun : classInsPass (gDirect g) (gParents g) F order [] = some st) :
    (∀ q ∈ order, ∀ p ∈ gParents g q, (alGet st p).isSome)
    ∧ (∀ q ∈ order, alGet st q
        = some (gDirect g q
            ∪ unionMap (fun p => (alGet st p).getD ∅) (gParents g q)))
    ∧ (∀ F₂ order₂ st₂,
        classInsPass (gDirect g) (gParents g) F₂ order₂ [] = some st₂ →
        ∀ q, q ∈ order → q ∈ order₂ → alGet st₂ q = alGet st q) := by
  have hgood0 : GoodSt (gDirect g) (gParents g) rank [] := by
    intro n v hv
    exact Option.noConfusion hv
  obtain ⟨hg, hvis⟩ :=
    classInsPass_sound (gDirect g) (gParents g) rank hrank F order [] st hgood0 hrun
  refine ⟨fun q hq => (hvis q hq).2, ?_, ?_⟩
  · intro q hq
    obtain ⟨v, hv⟩ := Option.isSome_iff_exists.mp (hvis q hq).1
    have hvval : v = reachF (gDirect g) (gParents g) (rank q) q := hg q v hv
    rw [hv, hvval, reach_fixpoint (gDirect g) (gParents g) rank hrank q]
    congr 1
    congr 1
    refine (unionMap_congr _ _ _ ?_).symm
    intro p hp
    obtain ⟨w, hw⟩ := Option.isSome_iff_exists.mp ((hvis q hq).2 p hp)
    rw [hw, Option.getD_some, hg p w hw]
  · intro F₂ order₂ st₂ hrun₂ q hq hq₂
    obtain ⟨hg₂, hvis₂⟩ :=
      classInsPass_sound (gDirect g) (gParents g) rank hrank F₂ order₂ [] st₂
        hgood0 hrun₂
    obtain ⟨v, hv⟩ := Option.isSome_iff_exists.mp (hvis q hq).1
    obtain ⟨w, hw⟩ := Option.isSome_iff_exists.mp (hvis₂ q hq₂).1
    rw [hv, hw, hg q v hv, hg₂ q w hw]

/-! ### C1 concrete instance: classes A and B feed question 3, which feeds
question 4; the class inputs of 4 arrive only through its parent 3. -/

def c1graph : Graph :=
  buildG [ .gnode { type := "classes" } none,
           .gnode { type := "class", cls := some "A" } none,
           .gnode { type := "class", cls := some "B" } none,
           .gnode { type := "question", label := some "Q3" } none,
           .gnode { type := "question", label := some "Q4" } none,
           .gedge (.byId 1) (.byId 3) none none,
           .gedge (.byId 2) (.byId 3) none none,
           .gedge (.byId 3) (.byId 4) none none ]

def c1rank (n : Nat) : Nat := if n = 4 then 1 else 0

theorem c1parents_eq (n : Nat) :
    gParents c1graph n = if n = 4 then [3] else [] := by
  by_cases h5 : n < 5
  · interval_cases n <;> rfl
  · have hlen : c1graph.nodes.length = 5 := by rfl
    rw [gParents_nil_of_le c1graph n (by rw [hlen]; omega),
      if_neg (show ¬n = 4 by omega)]

theorem c1rank_ok : ∀ n q, q ∈ gParents c1graph n → c1rank q < c1rank n := by
  intro n q hq
  rw [c1parents_eq] at hq
  split at hq
  next h4 =>
    subst h4
    have hq3 : q = 3 := List.mem_singleton.mp hq
    subst hq3
    decide
  next => exact absurd hq (List.not_mem_nil q)

/-- Depth-first order: 3 is visited before its child 4, so no recursion is
needed when 4 is reached. -/
def c1st : List (Nat × Finset String) :=
  (classInsPass (gDirect c1graph) (gParents c1graph) 2 [3, 4] []).getD []

/-- Reverse order: 4 is visited first, forcing the memoized recursion into
its parent 3. -/
def c1stB : List (Nat × Finset String) :=
  (classInsPass (gDirect c1graph) (gParents c1graph) 3 [4, 3] []).getD []

theorem classIn_propagation_union_law_witness :
    alGet c1st 3
      = some (gDirect c1graph 3
          ∪ unionMap (fun p => (alGet c1st p).getD ∅) (gParents c1graph 3))
    ∧ alGet c1st 4
      = some (gDirect c1graph 4
          ∪ unionMap (fun p => (alGet c1st p).getD ∅) (gParents c1graph 4))
    ∧ alGet c1stB 3 = alGet c1st 3
    ∧ alGet c1stB 4 = alGet c1st 4
    ∧ alGet c1st 4 = some ({"A", "B"} : Finset String) := by
  have h := classIn_propagation_union_law c1graph c1rank c1rank_ok
    2 [3, 4] c1st rfl
  refine ⟨h.2.1 3 (by decide), h.2.1 4 (by decide), ?_, ?_, by decide⟩
  · exact h.2.2 3 [4, 3] c1stB rfl 3 (by decide) (by decide)
  · exact h.2.2 3 [4, 3] c1stB rfl 4 (by decide) (by decide)

/-! ## SpecEvaluator (SpecEvaluator.js)

`evaluate` runs a SINGLE `mapNodes` traversal; for each node it backfills
the label, and if the node is a question it immediately chains class-input
propagation, condition collapsing, condition evaluation and id assignment
on that same node before the traversal moves on.  The neighbour wrappers
built by `_getEdgeNodes` expose the tombstone-filtered edge list as
`reledges`, while their `edges` property is the lazy record with only the
`out` and `in` getters; `_collapseConds` and `_evalQuestionConds` both
call `enode.edges.filter`, which therefore faults with a TypeError as soon
as a question node has at least one out-neighbour.

The `class_in` values (stored by the source on the node objects) are
threaded as the association-list state already used above, and the sha256
hex digest of `_idQuestion` is abstracted as an arbitrary digest function
parameter: no claim depends on digest values.  Events record which
normalization pass touched which node, in execution order. -/

def isTagChar (c : Char) : Bool :=
  (decide (97 ≤ c.toNat) && decide (c.toNat ≤ 122)) || c == Char.ofNat 45

/-- One group of `[a-z-]+\x24` at the head of the character list (the
character class cannot match the dollar sign, so the greedy scan needs no
backtracking). -/
def stripTagGroup (cs : List Char) : Option (List Char) :=
  let tag := cs.takeWhile isTagChar
  match tag, cs.drop tag.length with
  | [], _ => none
  | _ :: _, d :: rest => if d = Char.ofNat 36 then some rest else none
  | _ :: _, [] => none

def stripTagsF : Nat → List Char → List Char
  | 0, cs => cs
  | f+1, cs =>
    match stripTagGroup cs with
    | some rest => stripTagsF f rest
    | none => cs

/-- `_stripLabelPrefix`: drop the longest leading run of groups matched by
the anchored pattern. -/
def stripLabelTag (s : String) : String :=
  String.mk (stripTagsF s.data.length s.data)

def labelFalsy : Option String → Bool
  | none => true
  | some s => s == ""

/-- `_ensureLabel`.  A falsy label is replaced by the stripped node index;
a node with neither label nor index key faults on `label.replace` (the
source message puts single quote characters around `replace`; they are
omitted here). -/
def ensureLabel (g : Graph) (n : Nat) : Except String Graph :=
  match g.nodes[n]? with
  | none => .error "TypeError: node is undefined"
  | some nd =>
    if labelFalsy nd.data.label then
      match nd.meta.indexKey with
      | none => .error "TypeError: Cannot read property replace of undefined"
      | some k =>
        let nd2 := { nd with data := { nd.data with label := some (stripLabelTag k) } }
        .ok (setGNode g n nd2)
    else .ok g

/-- `_collapseConds`.  For each entry of `node.edges.out` the source reads
`enode.edges.filter`, but `enode.edges` is the lazy out/in record, which
has no `filter` method (the tombstone-filtered list the code needs is
`enode.reledges`); so the first out-neighbour faults, and only a question
with no out-neighbours gets past this pass. -/
def collapseConds (g : Graph) (n : Nat) : Except String Graph :=
  match outKeys g n with
  | [] => .ok g
  | _ :: _ => .error "TypeError: enode.edges.filter is not a function"

/-- `_determineQtype` on the list of option keys. -/
def determineQtype (opts : List String) : String :=
  let n := opts.length
  let yn := opts.contains "yes" && opts.contains "no"
  if n == 0 then "text"
  else if yn && n == 2 then "noyes"
  else if n == 1 && (opts.contains "yes" || opts.contains "no") then "noyes"
  else if (opts.filter (fun o => o.endsWith "%")).length == n then "percent"
  else "select"

/-- `_evalQuestionConds`: the reduce over `node.edges.out` reads
`out.edges.filter` and faults exactly as `_collapseConds` does; with no
out-neighbours the option set is empty and the question becomes a `text`
question with no options. -/
def evalQConds (g : Graph) (n : Nat) : Except String Graph :=
  match outKeys g n with
  | _ :: _ => .error "TypeError: enode.edges.filter is not a function"
  | [] =>
    match g.nodes[n]? with
    | none => .error "TypeError: node is undefined"
    | some nd =>
      let nd2 := { nd with data :=
        { nd.data with qtype := some (determineQtype []), qopts := [] } }
      .ok (setGNode g n nd2)

/-- `_idQuestion` with the hex digest abstracted as `hash`. -/
def idQuestion (hash : String → String) (g : Graph) (n : Nat) :
    Except String Graph :=
  match g.nodes[n]? with
  | none => .error "TypeError: node is undefined"
  | some nd =>
    match nd.data.label with
    | none => .error "TypeError: label is undefined"
    | some lbl =>
      let nd2 := { nd with data :=
        { nd.data with qid := some ("q_" ++ (hash lbl).take 5) } }
      .ok (setGNode g n nd2)

/-- One trace event per normalization action applied to a node. -/
inductive EvEvent where
  | lbl (n : Nat)
  | cins (n : Nat)
  | clps (n : Nat)
  | qcnd (n : Nat)
  | qassign (n : Nat)
deriving DecidableEq, Repr

/-- The pass a trace event belongs to, in the pass order the spec lists. -/
def passIdx : EvEvent → Nat
  | .lbl _ => 0
  | .cins _ => 1
  | .clps _ => 2
  | .qcnd _ => 3
  | .qassign _ => 4

/-- One `mapNodes` callback invocation of `evaluate` on node `n`:
label backfill, then for question nodes the chained
`_idQuestion (_evalQuestionConds (_collapseConds (_calcClassIns node)))`. -/
def evalNode (hash : String → String) (fuel : Nat)
    (acc : Graph × List (Nat × Finset String) × List EvEvent) (n : Nat) :
    Except String (Graph × List (Nat × Finset String) × List EvEvent) :=
  match ensureLabel acc.1 n with
  | .error e => .error e
  | .ok g1 =>
    let tr1 := acc.2.2 ++ [.lbl n]
    if nodeTypeOf g1 n = some "question" then
      match calcClassIns (gDirect g1) (gParents g1) fuel n acc.2.1 with
      | none => .error "RangeError: Maximum call stack size exceeded"
      | some st2 =>
        match collapseConds g1 n with
        | .error e => .error e
        | .ok g2 =>
          match evalQConds g2 n with
          | .error e => .error e
          | .ok g3 =>
            match idQuestion hash g3 n with
            | .error e => .error e
            | .ok g4 =>
              .ok (g4, st2, tr1 ++ [.cins n, .clps n, .qcnd n, .qassign n])
    else .ok (g1, acc.2.1, tr1)

/-- `evaluate`: the single traversal over all nodes.  (The JS object keys
of the adjacency records enumerate integer-like keys in ascending numeric
order rather than insertion order; every property stated below is
insensitive to neighbour enumeration order.) -/
def evaluateRun (hash : String → String) (g : Graph) (fuel : Nat) :
    Except String (Graph × List (Nat × Finset String) × List EvEvent) :=
  List.foldlM (fun acc n => evalNode hash fuel acc n) (g, ([], []))
    (List.range g.nodes.length)

/-! ## Claim C2: condition collapsing -/

/-- The payload objects of the live (non-tombstoned) edges. -/
def livePayloads (g : Graph) : List EPayload :=
  (g.edges.filterMap id).filterMap (fun r => g.estore[r]?)

/-- The predicates of the live `cond` edges from node `a` to node `b`. -/
def condPreds (g : Graph) (a b : Nat) : List (Option String) :=
  (livePayloads g).filterMap (fun pl =>
    match pl.meta with
    | some m =>
      if m.src == a && m.dst == b && (pl.data.type == some "cond")
      then some pl.data.pred else none
    | none => none)

/-- The C2 premise instance: classes root, class nodes A and B feeding
question 3, and two cond edges from 3 to action node 4 predicated on A
and on B with the same action. -/
def c2graph : Graph :=
  buildG [ .gnode { type := "classes", label := some "Classes" } none,
           .gnode { type := "class", cls := some "A", label := some "A" } none,
           .gnode { type := "class", cls := some "B", label := some "B" } none,
           .gnode { type := "question", label := some "Q" } none,
           .gnode { type := "xml", label := some "act" } none,
           .gedge (.byId 1) (.byId 3) none none,
           .gedge (.byId 2) (.byId 3) none none,
           .gedge (.byId 3) (.byId 4)
             (some { type := some "cond", cond := some "yes",
                     action := some "attach", pred := some "A" })
             (some "cond$A"),
           .gedge (.byId 3) (.byId 4)
             (some { type := some "cond", cond := some "yes",
                     action := some "attach", pred := some "B" })
             (some "cond$B") ]

/-- C2: on the very input shape the claim describes (question node 3 with
class inputs A and B and exactly two cond edges, predicated on A and on B,
to the same action on node 4), evaluation does not collapse anything: it
faults with a TypeError the moment `_collapseConds` touches the first
out-neighbour of node 3, because `enode.edges` is the lazy out/in record
and has no `filter` method, whatever digest function is used and for every
sufficient recursion budget.  Both predicated edges are still present in
the input graph the moment of the fault. -/
theorem collapseConds_typeerror (hash : String → String) :
    nodeTypeOf c2graph 3 = some "question"
    ∧ gDirect c2graph 3 = {"A", "B"}
    ∧ condPreds c2graph 3 4 = [some "A", some "B"]
    ∧ collapseConds c2graph 3
        = .error "TypeError: enode.edges.filter is not a function"
    ∧ evaluateRun hash c2graph 9
        = .error "TypeError: enode.edges.filter is not a function" := by
  refine ⟨rfl, by decide, rfl, rfl, rfl⟩

/-! ## Claim C7: pass ordering of `evaluate` -/

/-- The block of trace events `evaluate` emits for one node: every node
gets its label backfill, and a question node immediately receives the four
remaining passes before the traversal advances. -/
def nodeBlock (g : Graph) (n : Nat) : List EvEvent :=
  if nodeTypeOf g n = some "question"
  then [.lbl n, .cins n, .clps n, .qcnd n, .qassign n]
  else [.lbl n]

theorem setGNode_typeOf (g : Graph) (n : Nat) (nd nd2 : GNode)
    (hn : g.nodes[n]? = some nd) (hty : nd2.data.type = nd.data.type) :
    (∀ m, nodeTypeOf (setGNode g n nd2) m = nodeTypeOf g m)
    ∧ (setGNode g n nd2).nodes.length = g.nodes.length := by
  constructor
  · intro m
    by_cases hm : n = m
    · subst hm
      obtain ⟨hlt, _⟩ := List.getElem?_eq_some_iff.mp hn
      show ((g.nodes.set n nd2)[n]?).map (fun x => x.data.type) = _
      rw [List.getElem?_set_eq_of_lt _ hlt]
      show some nd2.data.type = (g.nodes[n]?).map (fun x => x.data.type)
      rw [hn, hty]
      rfl
    · show ((g.nodes.set n nd2)[m]?).map (fun x => x.data.type) = _
      rw [List.getElem?_set_ne hm]
      rfl
  · exact List.length_set g.nodes n nd2

theorem ensureLabel_pres (g : Graph) (n : Nat) (g1 : Graph)
    (h : ensureLabel g n = .ok g1) :
    (∀ m, nodeTypeOf g1 m = nodeTypeOf g m)
    ∧ g1.nodes.length = g.nodes.length := by
  simp only [ensureLabel] at h
  split at h
  next => exact Except.noConfusion h
  next nd hn =>
  split at h
  next =>
    split at h
    next => exact Except.noConfusion h
    next k hk =>
      have hg1 := Except.ok.inj h
      rw [← hg1]
      exact setGNode_typeOf g n nd _ hn rfl
  next =>
    have hg1 := Except.ok.inj h
    rw [← hg1]
    exact ⟨fun m => rfl, rfl⟩

theorem collapseConds_ok (g : Graph) (n : Nat) (g2 : Graph)
    (h : collapseConds g n = .ok g2) : g2 = g := by
  simp only [collapseConds] at h
  split at h
  next => exact (Except.ok.inj h).symm
  next => exact Except.noConfusion h

theorem evalQConds_pres (g : Graph) (n : Nat) (g1 : Graph)
    (h : evalQConds g n = .ok g1) :
    (∀ m, nodeTypeOf g1 m = nodeTypeOf g m)
    ∧ g1.nodes.length = g.nodes.length := by
  simp only [evalQConds] at h
  split at h
  next => exact Except.noConfusion h
  next =>
  split at h
  next => exact Except.noConfusion h
  next nd hn =>
    have hg1 := Except.ok.inj h
    rw [← hg1]
    exact setGNode_typeOf g n nd _ hn rfl

theorem idQuestion_pres (hash : String → String) (g : Graph) (n : Nat)
    (g1 : Graph) (h : idQuestion hash g n = .ok g1) :
    (∀ m, nodeTypeOf g1 m = nodeTypeOf g m)
    ∧ g1.nodes.length = g.nodes.length := by
  simp only [idQuestion] at h
  split at h
  next => exact Except.noConfusion h
  next nd hn =>
  split at h
  next => exact Except.noConfusion h
  next lbl hl =>
    have hg1 := Except.ok.inj h
    rw [← hg1]
    exact setGNode_typeOf g n nd _ hn rfl

theorem evalNode_ok (hash : String → String) (fuel : Nat) (g : Graph)
    (st : List (Nat × Finset String)) (tr : List EvEvent) (n : Nat)
    (g2 : Graph) (st2 : List (Nat × Finset String)) (tr2 : List EvEvent)
    (h : evalNode hash fuel (g, st, tr) n = .ok (g2, st2, tr2)) :
    tr2 = tr ++ nodeBlock g n
    ∧ (∀ m, nodeTypeOf g2 m = nodeTypeOf g m)
    ∧ g2.nodes.length = g.nodes.length := by
  simp only [evalNode] at h
  split at h
  next => exact Except.noConfusion h
  next g1 hel =>
  obtain ⟨hpres1, hlen1⟩ := ensureLabel_pres g n g1 hel
  split at h
  next hq =>
    split at h
    next => exact Except.noConfusion h
    next stq hci =>
    split at h
    next => exact Except.noConfusion h
    next gc hcc =>
    split at h
    next => exact Except.noConfusion h
    next ge hec =>
    split at h
    next => exact Except.noConfusion h
    next gi hic =>
      simp only [Except.ok.injEq, Prod.mk.injEq] at h
      obtain ⟨hg2, hst2, htr2⟩ := h
      have hgc : gc = g1 := collapseConds_ok g1 n gc hcc
      subst hgc
      obtain ⟨hpres2, hlen2⟩ := evalQConds_pres gc n ge hec
      obtain ⟨hpres3, hlen3⟩ := idQuestion_pres hash ge n gi hic
      have hqg : nodeTypeOf g n = some "question" := (hpres1 n).symm.trans hq
      refine ⟨?_, ?_, ?_⟩
      · rw [← htr2]
        simp [nodeBlock, hqg]
      · intro m
        rw [← hg2, hpres3 m, hpres2 m, hpres1 m]
      · rw [← hg2, hlen3, hlen2, hlen1]
  next hq =>
    simp only [Except.ok.injEq, Prod.mk.injEq] at h
    obtain ⟨hg2, hst2, htr2⟩ := h
    have hqg : ¬nodeTypeOf g n = some "question" := fun hh =>
      hq ((hpres1 n).trans hh)
    refine ⟨?_, ?_, ?_⟩
    · rw [← htr2]
      simp [nodeBlock, hqg]
    · intro m
      rw [← hg2, hpres1 m]
    · rw [← hg2, hlen1]

theorem evalTrace_aux (hash : String → String) (fuel : Nat) (g0 : Graph) :
    ∀ (ns : List Nat) (g : Graph) (st : List (Nat × Finset String))
      (tr : List EvEvent) (out : Graph × List (Nat × Finset String) × List EvEvent),
      (∀ m, nodeTypeOf g m = nodeTypeOf g0 m) →
      List.foldlM (fun acc n => evalNode hash fuel acc n) (g, st, tr) ns = .ok out →
      out.2.2 = tr ++ ns.flatMap (nodeBlock g0) := by
  intro ns
  induction ns with
  | nil =>
    intro g st tr out hpres h
    have hout := Except.ok.inj h
    rw [← hout]
    simp
  | cons n ns ih =>
    intro g st tr out hpres h
    rw [List.foldlM_cons] at h
    cases hstep : evalNode hash fuel (g, st, tr) n with
    | error e => rw [hstep] at h; exact Except.noConfusion h
    | ok b =>
      rw [hstep] at h
      obtain ⟨g1, st1, tr1⟩ := b
      obtain ⟨htr1, hpres1, _⟩ :=
        evalNode_ok hash fuel g st tr n g1 st1 tr1 hstep
      have hblock : nodeBlock g n = nodeBlock g0 n := by
        simp only [nodeBlock, hpres n]
      have hrest := ih g1 st1 tr1 out
        (fun m => (hpres1 m).trans (hpres m)) h
      rw [hrest, htr1, hblock, List.flatMap_cons, List.append_assoc]

/-- C7 (amended): `evaluate` is a single traversal that applies ALL
normalization passes to one node before moving to the next, rather than
finishing each pass over the whole graph first: the trace of every
successful run is exactly the per-node blocks, in node order, where a
question node receives label backfill, class-input propagation, condition
collapsing, condition evaluation and id assignment consecutively, and any
other node receives only the label backfill. -/
theorem evaluateRun_per_node_trace (hash : String → String) (g : Graph)
    (fuel : Nat) (g2 : Graph) (st : List (Nat × Finset String))
    (tr : List EvEvent) (h : evaluateRun hash g fuel = .ok (g2, st, tr)) :
    tr = (List.range g.nodes.length).flatMap (nodeBlock g) := by
  have haux := evalTrace_aux hash fuel g (List.range g.nodes.length) g [] []
    (g2, st, tr) (fun m => rfl) h
  simpa using haux

/-! ### C7 concrete instance: two labelled questions with no edges, so the
run completes; the trace interleaves the passes per node. -/

def sampleHash (s : String) : String := s

def c7graph : Graph :=
  buildG [ .gnode { type := "question", label := some "QA" } none,
           .gnode { type := "question", label := some "QB" } none ]

def c7trace : List EvEvent :=
  [ .lbl 0, .cins 0, .clps 0, .qcnd 0, .qassign 0,
    .lbl 1, .cins 1, .clps 1, .qcnd 1, .qassign 1 ]

def c7res : Graph × List (Nat × Finset String) × List EvEvent :=
  (evaluateRun sampleHash c7graph 2).toOption.getD (c7graph, ([], []))

/-- Counterexample to C7 as stated: the successful run on two question
nodes produces a trace in which every pass is applied to node 0 (through
pass 4, the id assignment) before pass 0 (the label backfill) touches
node 1, so the passes are NOT applied strictly pass-by-pass over the whole
graph. -/
theorem evaluate_pass_order_counterexample :
    evaluateRun sampleHash c7graph 2 = .ok c7res
    ∧ c7res.2.2 = c7trace
    ∧ ¬ List.Pairwise (fun a b => passIdx a ≤ passIdx b) c7trace := by
  refine ⟨rfl, rfl, by decide⟩

theorem evaluateRun_per_node_trace_witness :
    c7res.2.2 = (List.range c7graph.nodes.length).flatMap (nodeBlock c7graph) :=
  evaluateRun_per_node_trace sampleHash c7graph 2 c7res.1 c7res.2.1 c7res.2.2 rfl

/-! ## SpecParser: `parse` and `_concatQset` (claim C5)

`parse` wraps the stream wiring in `new Promise( resolve => ... )`: the
executor receives ONLY `resolve`, and the row handler it registers for the
`json` events runs later, when the csv stream emits, outside the executor.
A throw inside `_concatQset` therefore propagates into the stream emitter;
it never reaches any reject callback (none exists), and the promise is
left forever unsettled.  The row handler then tokenizes the concatenated
question-set string with `_parseQset`, which is pure string work that
never touches the graph and is irrelevant to the missing-column error
path, so the model is cut after `_concatQset`.  The source wraps the
column names of the error messages in single quote characters, omitted
here. -/

/-- One csv row, pre-tokenization: the five columns the parser reads; a
`none` column is absent from the row object (`undefined`). -/
structure Row where
  classCode : Option String := none
  classDesc : Option String := none
  qset1 : Option String := none
  qset2 : Option String := none
  qset3 : Option String := none
deriving DecidableEq, Repr

/-- `_concatQset` for row number `i` (zero-based, as the stream counts). -/
def concatQset (row : Row) (i : Nat) : Except String ((String × String) × String) :=
  match row.classCode with
  | none => .error ("Missing column Class Code for row " ++ toString (i + 1))
  | some class_code =>
    match row.classDesc with
    | none => .error ("Missing column Class(es) of Business for row "
        ++ toString (i + 1))
    | some class_desc =>
      match row.qset1 with
      | none => .error ("Missing column Question Set for row " ++ toString (i + 1))
      | some q1 =>
        match row.qset2 with
        | none => .error ("Missing column Question Set, continued for row "
            ++ toString (i + 1))
        | some q2 =>
          match row.qset3 with
          | none => .error ("Missing column Question Set, continued 2 for row "
              ++ toString (i + 1))
          | some q3 =>
            .ok ((class_code, class_desc),
              "" ++ q1 ++ "\n" ++ q2 ++ "\n" ++ q3 ++ "\n")

/-- The `json` handler applied to each row in stream order. -/
def parseRows : List Row → Nat → Except String (List ((String × String) × String))
  | [], _ => .ok []
  | r :: rs, i =>
    match concatQset r i with
    | .error e => .error e
    | .ok t => (parseRows rs (i + 1)).map (fun ts => t :: ts)

/-- How the promise returned by `parse` can end up: settled by `resolve`,
never settled because a row handler threw into the stream emitter, or
settled by a rejection.  The executor binds only `resolve`, so the
translation below can never produce the `rejected` outcome. -/
inductive ParseOutcome where
  | resolved (qsets : List ((String × String) × String))
  | handlerThrow (msg : String)
  | rejected (msg : String)
deriving DecidableEq, Repr

/-- The fate of the promise returned by `parse` on a given row stream (cut
after `_concatQset`; a fully successful stream reaches `resolve` via the
`done` handler). -/
def parseModel (rows : List Row) : ParseOutcome :=
  match parseRows rows 0 with
  | .error e => .handlerThrow e
  | .ok ts => .resolved ts

/-- C5: the promise returned by `parse` never rejects.  A first row with
no class-code column makes the handler throw the row-one missing-column
error into the stream emitter, whatever rows follow: the promise is never
settled, the error identifies the row but reaches no promise consumer,
and no outcome of the model is a rejection for any stream at all. -/
theorem parse_missing_column_no_rejection :
    (∀ rest : List Row,
      parseModel ({ classDesc := some "d" } :: rest)
        = .handlerThrow "Missing column Class Code for row 1")
    ∧ (∀ rows m, parseModel rows ≠ .rejected m) := by
  constructor
  · intro rest
    rfl
  · intro rows m
    simp only [parseModel]
    split
    next => exact fun hh => ParseOutcome.noConfusion hh
    next => exact fun hh => ParseOutcome.noConfusion hh

theorem parse_missing_column_no_rejection_witness :
    parseModel [{ classDesc := some "d" }]
      = .handlerThrow "Missing column Class Code for row 1"
    ∧ parseModel [{ classDesc := some "d" }] ≠ .rejected "anything" :=
  ⟨parse_missing_column_no_rejection.1 [],
   parse_missing_column_no_rejection.2 [{ classDesc := some "d" }] "anything"⟩

/-! ## Claim C9: `_createClassNode` -/

/-- `_createClassNode`.  The source reads `graph[ index ]` with
`index = class$<code>`: that is a plain property access on the Graph
INSTANCE, and nothing ever assigns such a property (`addNodeIfNew`
registers the key in the private `_nodeIndex` map), so `existing` is
always `undefined`, the description backfill branch is dead, and every
call reaches both `addNodeIfNew` and the UNINDEXED
`addEdge( classes, class_node, \x7b type: classroot \x7d )`, which
appends a fresh classroot edge each time. -/
def createClassNode (g : Graph) (class_code : String)
    (class_desc : Option String) : Except String (Graph × Nat) :=
  let existing : Option Nat := none
  match existing with
  | some i => .ok (g, i)
  | none =>
    match addNodeIfNew g
        { type := "class", label := some ("Class " ++ class_code),
          cls := some class_code,
          desc := some (class_desc.getD "") }
        (some ("class$" ++ class_code)) with
    | .error e => .error e
    | .ok (g1, id) =>
      let gr := allocPayload g1 { type := some "classroot" }
      match addEdge gr.1 (.byKey "classes") (.byObj (some id)) (some gr.2) none with
      | .error e => .error e
      | .ok (g2, _) => .ok (g2, id)

/-- Live classroot edge count (the classes-to-class linkage edges). -/
def classrootCount (g : Graph) : Nat :=
  ((livePayloads g).filter (fun pl => pl.data.type == some "classroot")).length

def c9base : Graph :=
  buildG [ .gnode { type := "classes" } (some "classes") ]

def c9g1 : Graph :=
  match createClassNode c9base "12345" none with
  | .ok (g, _) => g
  | .error _ => c9base

def c9g2 : Graph :=
  match createClassNode c9g1 "12345" (some "Restaurants") with
  | .ok (g, _) => g
  | .error _ => c9g1

/-- C9: a class code encountered twice (first without, then with a
description) yields exactly one class node as claimed, with the
occurrence count bumped to two, but the classroot linkage is NOT unique:
the second encounter appends a second classroot edge from the classes
root, and the description is never backfilled (the lookup guarding the
backfill reads a plain never-assigned property of the graph object). -/
theorem createClassNode_duplicate_classroot :
    createClassNode c9base "12345" none = .ok (c9g1, 1)
    ∧ createClassNode c9g1 "12345" (some "Restaurants") = .ok (c9g2, 1)
    ∧ (c9g2.nodes.filter (fun nd => nd.data.type == "class")).length = 1
    ∧ occurOf c9g2 1 = some 2
    ∧ classrootCount c9g1 = 1
    ∧ classrootCount c9g2 = 2
    ∧ (c9g2.nodes[1]?).map (fun nd => nd.data.desc) = some (some "") := by
  refine ⟨rfl, rfl, by decide, by decide, by decide, by decide, by decide⟩
